import Mathlib

/-!
Shallow embedding of the GPU task-scheduling and buffer-resource-management
core of the `solmap` repository (`src-host/buffer.{hpp,cpp}`,
`src-host/shadow_processor.{hpp,cpp}`, `src-host/main.cpp`,
`src/semaphore.hpp`), together with proofs of the specified properties.

Vulkan flag words are modelled as natural-number bitmasks, machine
integers as `Nat` (all quantities involved stay far below `2^32`, and the
claims are about exact integer arithmetic), GPU-side nondeterminism
(fence completion) as explicit transition steps, and the C++ exception
control flow of the buffer constructors as `Except` values.
-/

namespace Solmap

/-! ### Vulkan flag constants (from `vulkan_core.h`, as used by the sources) -/

/-- `VK_MEMORY_PROPERTY_DEVICE_LOCAL_BIT` -/
def DEVICE_LOCAL_BIT : Nat := 1

/-- `VK_MEMORY_PROPERTY_HOST_VISIBLE_BIT` -/
def HOST_VISIBLE_BIT : Nat := 2

/-- `VK_BUFFER_USAGE_TRANSFER_SRC_BIT` -/
def TRANSFER_SRC_BIT : Nat := 1

/-- `VK_BUFFER_USAGE_TRANSFER_DST_BIT` -/
def TRANSFER_DST_BIT : Nat := 2

/-- `HOST_WILL_WRITE_BIT = (1 << 0)` from `buffer.hpp`. -/
def HOST_WILL_WRITE_BIT : Nat := 1

/-- `HOST_WILL_READ_BIT = (1 << 1)` from `buffer.hpp`. -/
def HOST_WILL_READ_BIT : Nat := 2

/-! ### `find_memory_heap` (`buffer.cpp`, lines 4-42)

`VkPhysicalDeviceMemoryProperties` is modelled as the list of the
`propertyFlags` words of its `memoryTypes[0 .. memoryTypeCount-1]`
entries; `memoryTypeCount` is the length of that list.  The C++ loop
keeps the running `mtype` variable (initialised to `memoryTypeCount`)
and breaks out as soon as a candidate also carries all `prefered` bits.
-/

/-- The scanning loop of `find_memory_heap`: `types` is the remainder of
the memory-type table, `i` the index of its head in the full table, and
`mtype` the current value of the C++ `mtype` variable. -/
def find_memory_heap_loop (allowed required prefered : Nat) :
    List Nat → Nat → Nat → Nat
  | [], _, mtype => mtype
  | f :: rest, i, mtype =>
    if ¬ allowed.testBit i then
      find_memory_heap_loop allowed required prefered rest (i + 1) mtype
    else if f &&& required ≠ required then
      find_memory_heap_loop allowed required prefered rest (i + 1) mtype
    else if f &&& prefered = prefered then
      i
    else
      find_memory_heap_loop allowed required prefered rest (i + 1) i

/-- `find_memory_heap(mem_props, allowed, required, prefered)`:
returns the selected memory-type index, or the thrown
`std::runtime_error` message when no suitable type exists. -/
def find_memory_heap (memTypes : List Nat) (allowed required prefered : Nat) :
    Except String Nat :=
  let mtype := find_memory_heap_loop allowed required prefered memTypes 0
    memTypes.length
  if mtype = memTypes.length then
    .error "No suitable memory type found."
  else
    .ok mtype

/-- Memory type `i` (with flag word `f`) passes both `continue` filters of
the loop: its bit is set in `allowed` and its flags contain `required`. -/
def isCandidate (allowed required : Nat) (i f : Nat) : Prop :=
  allowed.testBit i ∧ f &&& required = required

instance (allowed required i f : Nat) :
    Decidable (isCandidate allowed required i f) := by
  unfold isCandidate; infer_instance

/-- A candidate that moreover contains all `prefered` bits (the `break`
condition). -/
def isPreferred (allowed required prefered : Nat) (i f : Nat) : Prop :=
  isCandidate allowed required i f ∧ f &&& prefered = prefered

instance (allowed required prefered i f : Nat) :
    Decidable (isPreferred allowed required prefered i f) := by
  unfold isPreferred; infer_instance

/-- Index (in the full table) of the first entry of `l` (whose head sits
at table index `i`) at which the loop would `break`. -/
def firstPrefAux (allowed required prefered : Nat) : List Nat → Nat → Option Nat
  | [], _ => none
  | f :: rest, i =>
    if isPreferred allowed required prefered i f then some i
    else firstPrefAux allowed required prefered rest (i + 1)

/-- Index (in the full table) of the last candidate entry of `l`. -/
def lastCandAux (allowed required : Nat) : List Nat → Nat → Option Nat
  | [], _ => none
  | f :: rest, i =>
    match lastCandAux allowed required rest (i + 1) with
    | some j => some j
    | none => if isCandidate allowed required i f then some i else none

theorem find_memory_heap_loop_eq (allowed required prefered : Nat)
    (l : List Nat) : ∀ (i mtype : Nat),
    find_memory_heap_loop allowed required prefered l i mtype =
      match firstPrefAux allowed required prefered l i with
      | some j => j
      | none => (lastCandAux allowed required l i).getD mtype := by
  induction l with
  | nil => intro i mtype; simp [find_memory_heap_loop, firstPrefAux, lastCandAux]
  | cons f rest IH =>
    intro i mtype
    by_cases hb : allowed.testBit i
    · by_cases hr : f &&& required = required
      · by_cases hp : f &&& prefered = prefered
        · simp [find_memory_heap_loop, firstPrefAux, hb, hr, hp,
            isPreferred, isCandidate]
        · rw [show find_memory_heap_loop allowed required prefered
              (f :: rest) i mtype =
              find_memory_heap_loop allowed required prefered rest (i + 1) i
              by simp [find_memory_heap_loop, hb, hr, hp]]
          rw [IH (i + 1) i]
          rw [show firstPrefAux allowed required prefered (f :: rest) i =
              firstPrefAux allowed required prefered rest (i + 1)
              by simp [firstPrefAux, isPreferred, isCandidate, hp]]
          cases firstPrefAux allowed required prefered rest (i + 1) with
          | some j => rfl
          | none =>
            show _ = (lastCandAux allowed required (f :: rest) i).getD mtype
            rw [lastCandAux]
            cases lastCandAux allowed required rest (i + 1) with
            | some j => rfl
            | none => simp [isCandidate, hb, hr]
      · rw [show find_memory_heap_loop allowed required prefered
            (f :: rest) i mtype =
            find_memory_heap_loop allowed required prefered rest (i + 1) mtype
            by simp [find_memory_heap_loop, hb, hr]]
        rw [IH (i + 1) mtype]
        rw [show firstPrefAux allowed required prefered (f :: rest) i =
            firstPrefAux allowed required prefered rest (i + 1)
            by simp [firstPrefAux, isPreferred, isCandidate, hr]]
        cases firstPrefAux allowed required prefered rest (i + 1) with
        | some j => rfl
        | none =>
          show _ = (lastCandAux allowed required (f :: rest) i).getD mtype
          rw [lastCandAux]
          cases lastCandAux allowed required rest (i + 1) with
          | some j => rfl
          | none => simp [isCandidate, hr]
    · rw [show find_memory_heap_loop allowed required prefered
          (f :: rest) i mtype =
          find_memory_heap_loop allowed required prefered rest (i + 1) mtype
          by simp [find_memory_heap_loop, hb]]
      rw [IH (i + 1) mtype]
      rw [show firstPrefAux allowed required prefered (f :: rest) i =
          firstPrefAux allowed required prefered rest (i + 1)
          by simp [firstPrefAux, isPreferred, isCandidate, hb]]
      cases firstPrefAux allowed required prefered rest (i + 1) with
      | some j => rfl
      | none =>
        show _ = (lastCandAux allowed required (f :: rest) i).getD mtype
        rw [lastCandAux]
        cases lastCandAux allowed required rest (i + 1) with
        | some j => rfl
        | none => simp [isCandidate, hb]

theorem firstPrefAux_none (allowed required prefered : Nat) (l : List Nat) :
    ∀ i, firstPrefAux allowed required prefered l i = none →
      ∀ k, k < l.length →
        ¬ isPreferred allowed required prefered (i + k) (l.getD k 0) := by
  induction l with
  | nil => intro i _ k hk; simp at hk
  | cons f rest IH =>
    intro i h k hk
    rw [firstPrefAux] at h
    by_cases hp : isPreferred allowed required prefered i f
    · simp [hp] at h
    · rw [if_neg hp] at h
      match k with
      | 0 => simpa using hp
      | k' + 1 =>
        have := IH (i + 1) h k' (by simpa using hk)
        simpa [Nat.add_assoc, Nat.add_comm 1 k'] using this

theorem firstPrefAux_some (allowed required prefered : Nat) (l : List Nat) :
    ∀ i j, firstPrefAux allowed required prefered l i = some j →
      ∃ k, k < l.length ∧ j = i + k ∧
        isPreferred allowed required prefered j (l.getD k 0) ∧
        ∀ k', k' < k →
          ¬ isPreferred allowed required prefered (i + k') (l.getD k' 0) := by
  induction l with
  | nil => intro i j h; simp [firstPrefAux] at h
  | cons f rest IH =>
    intro i j h
    rw [firstPrefAux] at h
    by_cases hp : isPreferred allowed required prefered i f
    · rw [if_pos hp] at h
      obtain rfl : i = j := by simpa using h
      exact ⟨0, by simp, by simp, by simpa using hp, by omega⟩
    · rw [if_neg hp] at h
      obtain ⟨k, hk, rfl, hpk, hmin⟩ := IH (i + 1) j h
      refine ⟨k + 1, by simpa using hk, by omega, ?_, ?_⟩
      · simpa [Nat.add_assoc, Nat.add_comm 1 k] using hpk
      · intro k' hk'
        match k' with
        | 0 => simpa using hp
        | k'' + 1 =>
          have := hmin k'' (by omega)
          simpa [Nat.add_assoc, Nat.add_comm 1 k''] using this

theorem lastCandAux_none (allowed required : Nat) (l : List Nat) :
    ∀ i, lastCandAux allowed required l i = none →
      ∀ k, k < l.length →
        ¬ isCandidate allowed required (i + k) (l.getD k 0) := by
  induction l with
  | nil => intro i _ k hk; simp at hk
  | cons f rest IH =>
    intro i h k hk
    rw [lastCandAux] at h
    rcases hrec : lastCandAux allowed required rest (i + 1) with _ | j
    · rw [hrec] at h
      by_cases hc : isCandidate allowed required i f
      · simp [hc] at h
      · rw [if_neg hc] at h
        match k with
        | 0 => simpa using hc
        | k' + 1 =>
          have := IH (i + 1) hrec k' (by simpa using hk)
          simpa [Nat.add_assoc, Nat.add_comm 1 k'] using this
    · rw [hrec] at h; exact absurd h (by simp)

theorem lastCandAux_some (allowed required : Nat) (l : List Nat) :
    ∀ i j, lastCandAux allowed required l i = some j →
      ∃ k, k < l.length ∧ j = i + k ∧
        isCandidate allowed required j (l.getD k 0) ∧
        ∀ k', k < k' → k' < l.length →
          ¬ isCandidate allowed required (i + k') (l.getD k' 0) := by
  induction l with
  | nil => intro i j h; simp [lastCandAux] at h
  | cons f rest IH =>
    intro i j h
    rw [lastCandAux] at h
    rcases hrec : lastCandAux allowed required rest (i + 1) with _ | j'
    · rw [hrec] at h
      by_cases hc : isCandidate allowed required i f
      · rw [if_pos hc] at h
        obtain rfl : i = j := by simpa using h
        refine ⟨0, by simp, by simp, by simpa using hc, ?_⟩
        intro k' h0 hk'
        match k' with
        | k'' + 1 =>
          have := lastCandAux_none allowed required rest (i + 1) hrec k''
            (by simpa using hk')
          simpa [Nat.add_assoc, Nat.add_comm 1 k''] using this
      · rw [if_neg hc] at h; exact absurd h (by simp)
    · rw [hrec] at h
      obtain rfl : j = j' := by simpa using h.symm
      obtain ⟨k, hk, rfl, hck, hmax⟩ := IH (i + 1) _ hrec
      refine ⟨k + 1, by simpa using hk, by omega, ?_, ?_⟩
      · simpa [Nat.add_assoc, Nat.add_comm 1 k] using hck
      · intro k' hlt hk'
        match k' with
        | k'' + 1 =>
          have := hmax k'' (by omega) (by simpa using hk')
          simpa [Nat.add_assoc, Nat.add_comm 1 k''] using this

/-- Case analysis on the outcome of `find_memory_heap` in terms of
`firstPrefAux`/`lastCandAux`. -/
theorem find_memory_heap_cases (memTypes : List Nat)
    (allowed required prefered : Nat) :
    (∃ j, firstPrefAux allowed required prefered memTypes 0 = some j ∧
        find_memory_heap memTypes allowed required prefered = .ok j) ∨
    (firstPrefAux allowed required prefered memTypes 0 = none ∧
      ∃ j, lastCandAux allowed required memTypes 0 = some j ∧
        find_memory_heap memTypes allowed required prefered = .ok j) ∨
    (firstPrefAux allowed required prefered memTypes 0 = none ∧
      lastCandAux allowed required memTypes 0 = none ∧
      find_memory_heap memTypes allowed required prefered =
        .error "No suitable memory type found.") := by
  have hloop := find_memory_heap_loop_eq allowed required prefered memTypes 0
    memTypes.length
  rcases hF : firstPrefAux allowed required prefered memTypes 0 with _ | j
  · rcases hL : lastCandAux allowed required memTypes 0 with _ | j
    · refine .inr (.inr ⟨rfl, rfl, ?_⟩)
      rw [hF, hL] at hloop
      simp [find_memory_heap, hloop]
    · refine .inr (.inl ⟨rfl, j, rfl, ?_⟩)
      rw [hF, hL] at hloop
      obtain ⟨k, hk, hj, -, -⟩ := lastCandAux_some allowed required memTypes 0 j hL
      have hjlt : j < memTypes.length := by omega
      simp [find_memory_heap, hloop, Nat.ne_of_lt hjlt]
  · refine .inl ⟨j, rfl, ?_⟩
    rw [hF] at hloop
    obtain ⟨k, hk, hj, -, -⟩ := firstPrefAux_some allowed required prefered
      memTypes 0 j hF
    have hjlt : j < memTypes.length := by omega
    simp [find_memory_heap, hloop, Nat.ne_of_lt hjlt]

/-- **C2.** `find_memory_heap(mem_props, allowed, required, preferred)`:
scanning memory types in index order and skipping entries not in the
allowed mask or whose flags do not contain the required bits, it returns
the index of the first candidate whose flags also contain the preferred
bits if one exists; if no candidate contains the preferred bits it
returns the index of the last candidate; and it throws the
`"No suitable memory type found."` error if and only if no allowed entry
contains the required bits.  In particular, on the 3-type table with
type 0 = required-only, type 1 = required+preferred, type 2 =
required-only, it returns 1. -/
theorem find_memory_heap_spec (memTypes : List Nat)
    (allowed required prefered : Nat) :
    ((∃ k, k < memTypes.length ∧
        isPreferred allowed required prefered k (memTypes.getD k 0)) →
      ∃ j, find_memory_heap memTypes allowed required prefered = .ok j ∧
        j < memTypes.length ∧
        isPreferred allowed required prefered j (memTypes.getD j 0) ∧
        ∀ k, k < j →
          ¬ isPreferred allowed required prefered k (memTypes.getD k 0)) ∧
    ((∃ k, k < memTypes.length ∧
        isCandidate allowed required k (memTypes.getD k 0)) →
      (∀ k, k < memTypes.length →
        ¬ isPreferred allowed required prefered k (memTypes.getD k 0)) →
      ∃ j, find_memory_heap memTypes allowed required prefered = .ok j ∧
        j < memTypes.length ∧
        isCandidate allowed required j (memTypes.getD j 0) ∧
        ∀ k, j < k → k < memTypes.length →
          ¬ isCandidate allowed required k (memTypes.getD k 0)) ∧
    (find_memory_heap memTypes allowed required prefered =
        .error "No suitable memory type found." ↔
      ∀ k, k < memTypes.length →
        ¬ isCandidate allowed required k (memTypes.getD k 0)) ∧
    find_memory_heap
      [DEVICE_LOCAL_BIT, DEVICE_LOCAL_BIT ||| HOST_VISIBLE_BIT,
        DEVICE_LOCAL_BIT] 7 DEVICE_LOCAL_BIT HOST_VISIBLE_BIT = .ok 1 := by
  refine ⟨?_, ?_, ?_, by rfl⟩
  · rintro ⟨k0, hk0, hp0⟩
    rcases find_memory_heap_cases memTypes allowed required prefered with
      ⟨j, hF, hres⟩ | ⟨hF, -⟩ | ⟨hF, -⟩
    · obtain ⟨k, hk, hj, hpref, hmin⟩ := firstPrefAux_some allowed required
        prefered memTypes 0 j hF
      obtain rfl : j = k := by omega
      refine ⟨j, hres, hk, hpref, ?_⟩
      intro k' hk'
      have := hmin k' hk'
      simpa using this
    · have hnone := firstPrefAux_none allowed required prefered memTypes 0
        hF k0 hk0
      exact absurd hp0 (by simpa using hnone)
    · have hnone := firstPrefAux_none allowed required prefered memTypes 0
        hF k0 hk0
      exact absurd hp0 (by simpa using hnone)
  · rintro ⟨k0, hk0, hc0⟩ hnp
    rcases find_memory_heap_cases memTypes allowed required prefered with
      ⟨j, hF, -⟩ | ⟨-, j, hL, hres⟩ | ⟨-, hL, -⟩
    · obtain ⟨k, hk, hj, hpref, -⟩ := firstPrefAux_some allowed required
        prefered memTypes 0 j hF
      obtain rfl : j = k := by omega
      exact absurd hpref (hnp j hk)
    · obtain ⟨k, hk, hj, hcand, hmax⟩ := lastCandAux_some allowed required
        memTypes 0 j hL
      obtain rfl : j = k := by omega
      refine ⟨j, hres, hk, hcand, ?_⟩
      intro k' hjk' hk'
      have := hmax k' hjk' hk'
      simpa using this
    · have hnone := lastCandAux_none allowed required memTypes 0 hL k0 hk0
      exact absurd hc0 (by simpa using hnone)
  · constructor
    · intro herr k hk
      rcases find_memory_heap_cases memTypes allowed required prefered with
        ⟨j, -, hres⟩ | ⟨-, j, -, hres⟩ | ⟨-, hL, -⟩
      · rw [herr] at hres; exact absurd hres (by simp)
      · rw [herr] at hres; exact absurd hres (by simp)
      · have hnone := lastCandAux_none allowed required memTypes 0 hL k hk
        simpa using hnone
    · intro hnc
      rcases find_memory_heap_cases memTypes allowed required prefered with
        ⟨j, hF, -⟩ | ⟨-, j, hL, -⟩ | ⟨-, -, hres⟩
      · obtain ⟨k, hk, hj, hpref, -⟩ := firstPrefAux_some allowed required
          prefered memTypes 0 j hF
        obtain rfl : j = k := by omega
        exact absurd hpref.1 (hnc j hk)
      · obtain ⟨k, hk, hj, hcand, -⟩ := lastCandAux_some allowed required
          memTypes 0 j hL
        obtain rfl : j = k := by omega
        exact absurd hcand (hnc j hk)
      · exact hres

/-- Witness for `find_memory_heap_spec`: instantiated on the concrete
3-type table (flags `[required, required+preferred, required]`, all
types allowed), conjunct 1 applies and yields the first
preferred-carrying candidate. -/
theorem find_memory_heap_spec_witness :
    ∃ j, find_memory_heap
        [DEVICE_LOCAL_BIT, DEVICE_LOCAL_BIT ||| HOST_VISIBLE_BIT,
          DEVICE_LOCAL_BIT] 7 DEVICE_LOCAL_BIT HOST_VISIBLE_BIT = .ok j ∧
      j < 3 ∧
      isPreferred 7 DEVICE_LOCAL_BIT HOST_VISIBLE_BIT j
        ([DEVICE_LOCAL_BIT, DEVICE_LOCAL_BIT ||| HOST_VISIBLE_BIT,
          DEVICE_LOCAL_BIT].getD j 0) ∧
      ∀ k, k < j → ¬ isPreferred 7 DEVICE_LOCAL_BIT HOST_VISIBLE_BIT k
        ([DEVICE_LOCAL_BIT, DEVICE_LOCAL_BIT ||| HOST_VISIBLE_BIT,
          DEVICE_LOCAL_BIT].getD k 0) :=
  (find_memory_heap_spec
      [DEVICE_LOCAL_BIT, DEVICE_LOCAL_BIT ||| HOST_VISIBLE_BIT,
        DEVICE_LOCAL_BIT] 7 DEVICE_LOCAL_BIT HOST_VISIBLE_BIT).1
    ⟨1, by decide, by decide⟩

/-- Any index returned by `find_memory_heap` is in range and passes both
`continue` filters. -/
theorem find_memory_heap_ok_candidate {memTypes : List Nat}
    {allowed required prefered j : Nat}
    (h : find_memory_heap memTypes allowed required prefered = .ok j) :
    j < memTypes.length ∧
      isCandidate allowed required j (memTypes.getD j 0) := by
  rcases find_memory_heap_cases memTypes allowed required prefered with
    ⟨j', hF, hres⟩ | ⟨-, j', hL, hres⟩ | ⟨-, -, hres⟩
  · rw [h] at hres
    obtain rfl : j = j' := by simpa using hres
    obtain ⟨k, hk, hj, hpref, -⟩ := firstPrefAux_some allowed required
      prefered memTypes 0 _ hF
    obtain rfl : j = k := by omega
    exact ⟨hk, hpref.1⟩
  · rw [h] at hres
    obtain rfl : j = j' := by simpa using hres
    obtain ⟨k, hk, hj, hcand, -⟩ := lastCandAux_some allowed required
      memTypes 0 _ hL
    obtain rfl : j = k := by omega
    exact ⟨hk, hcand⟩
  · rw [h] at hres; exact absurd hres (by simp)

/-! ### The `Buffer` hierarchy (`buffer.hpp`, `buffer.cpp` lines 44-139)

A `Buffer` is modelled by the data the claims are about: the usage-flag
word its `VkBufferCreateInfo` was created with, its byte size, and the
memory-type index the selector chose for its backing `VkDeviceMemory`
(so a buffer's memory handle is identified with that record).  The
`memoryTypeBits` word of `vkGetBufferMemoryRequirements` is an input
from the environment (`typeBits`). -/

structure BufferObj where
  usage : Nat
  size : Nat
  mtype : Nat
  deriving DecidableEq

/-- `Buffer::Buffer` (`buffer.cpp`, lines 44-84): create the buffer,
select a heap with `find_memory_heap(mem_props, mem_reqs.memoryTypeBits,
required, prefered)`, allocate and bind; a selector failure propagates. -/
def Buffer.make (memTypes : List Nat) (typeBits usage size required
    prefered : Nat) : Except String BufferObj :=
  match find_memory_heap memTypes typeBits required prefered with
  | .error e => .error e
  | .ok mtype => .ok ⟨usage, size, mtype⟩

structure AccessibleBufferObj where
  buf : BufferObj
  is_host_visible : Bool
  deriving DecidableEq

/-- The usage-flag augmentation performed inside the `catch` block of
`AccessibleBuffer::AccessibleBuffer` (`buffer.cpp`, lines 100-107). -/
def augmented_usage (usage host_direction : Nat) : Nat :=
  let usage1 := if host_direction &&& HOST_WILL_WRITE_BIT != 0 then
      usage ||| TRANSFER_DST_BIT else usage
  if host_direction &&& HOST_WILL_READ_BIT != 0 then
    usage1 ||| TRANSFER_SRC_BIT else usage1

/-- `AccessibleBuffer::AccessibleBuffer` (`buffer.cpp`, lines 86-114):
first tries a `device-local ∧ host-visible` allocation; on failure
(caught), augments `usage` with `TRANSFER_DST` when the host will write
and `TRANSFER_SRC` when the host will read, and retries with the
requirement relaxed to `device-local` only. -/
def AccessibleBuffer.make (memTypes : List Nat)
    (typeBits usage size host_direction : Nat) :
    Except String AccessibleBufferObj :=
  match Buffer.make memTypes typeBits usage size
      (DEVICE_LOCAL_BIT ||| HOST_VISIBLE_BIT) 0 with
  | .ok b => .ok ⟨b, true⟩
  | .error _ =>
    match Buffer.make memTypes typeBits
        (augmented_usage usage host_direction) size DEVICE_LOCAL_BIT 0 with
    | .ok b => .ok ⟨b, false⟩
    | .error e => .error e

structure MaybeStagedBufferObj where
  buf : BufferObj
  staging_buf : Option BufferObj
  deriving DecidableEq

/-- The usage word of the staging buffer allocated by
`MaybeStagedBuffer::MaybeStagedBuffer` (`buffer.cpp`, lines 125-131):
transfer direction opposite to the host's access direction. -/
def staging_usage (host_direction : Nat) : Nat :=
  let su1 := if host_direction &&& HOST_WILL_WRITE_BIT != 0 then
      TRANSFER_SRC_BIT else 0
  if host_direction &&& HOST_WILL_READ_BIT != 0 then
    su1 ||| TRANSFER_DST_BIT else su1

/-- `MaybeStagedBuffer::MaybeStagedBuffer` (`buffer.cpp`, lines 116-139):
builds an `AccessibleBuffer`; when it is not host visible, additionally
allocates a host-visible staging `Buffer` of the same size.  The staging
buffer's own `memoryTypeBits` word is the separate environment input
`stagingTypeBits`. -/
def MaybeStagedBuffer.make (memTypes : List Nat)
    (typeBits stagingTypeBits usage size host_direction : Nat) :
    Except String MaybeStagedBufferObj :=
  match AccessibleBuffer.make memTypes typeBits usage size host_direction with
  | .error e => .error e
  | .ok ab =>
    if ab.is_host_visible then
      .ok ⟨ab.buf, none⟩
    else
      match Buffer.make memTypes stagingTypeBits
          (staging_usage host_direction) size HOST_VISIBLE_BIT 0 with
      | .error e => .error e
      | .ok sb => .ok ⟨ab.buf, some sb⟩

/-- `MaybeStagedBuffer::get_visible_mem` (`buffer.hpp`, lines 53-59):
the staging buffer's memory when staging is present, else the primary
buffer's own memory. -/
def MaybeStagedBufferObj.get_visible_mem (m : MaybeStagedBufferObj) :
    BufferObj :=
  match m.staging_buf with
  | some sb => sb
  | none => m.buf

/-- Facts recorded by a successful `Buffer::Buffer` construction: the
resulting buffer keeps the requested usage word and size, and its
backing memory type is an allowed type whose flags contain `required`. -/
theorem Buffer.make_ok {memTypes : List Nat}
    {typeBits usage size required prefered : Nat} {b : BufferObj}
    (h : Buffer.make memTypes typeBits usage size required prefered = .ok b) :
    b.usage = usage ∧ b.size = size ∧ b.mtype < memTypes.length ∧
      typeBits.testBit b.mtype ∧
      (memTypes.getD b.mtype 0) &&& required = required := by
  unfold Buffer.make at h
  rcases hf : find_memory_heap memTypes typeBits required prefered with e | m
  · rw [hf] at h; exact absurd h (by simp)
  · rw [hf] at h
    obtain rfl : b = ⟨usage, size, m⟩ := by simpa using h.symm
    obtain ⟨hlt, hbit, hand⟩ :
        m < memTypes.length ∧ typeBits.testBit m ∧
          (memTypes.getD m 0) &&& required = required := by
      have := find_memory_heap_ok_candidate hf
      exact ⟨this.1, this.2.1, this.2.2⟩
    exact ⟨rfl, rfl, hlt, hbit, hand⟩

theorem lor_and_self (x b : Nat) : (x ||| b) &&& b = b := by
  apply Nat.eq_of_testBit_eq
  intro i
  by_cases hbi : b.testBit i <;>
    simp [Nat.testBit_or, Nat.testBit_and, hbi]

theorem lor_lor_and_self (x b c : Nat) : ((x ||| b) ||| c) &&& b = b := by
  apply Nat.eq_of_testBit_eq
  intro i
  by_cases hbi : b.testBit i <;>
    simp [Nat.testBit_or, Nat.testBit_and, hbi]

/-- When the host will read, the augmented usage word carries the
transfer-source bit. -/
theorem augmented_usage_read {host_direction : Nat} (usage : Nat)
    (h : host_direction &&& HOST_WILL_READ_BIT ≠ 0) :
    augmented_usage usage host_direction &&& TRANSFER_SRC_BIT =
      TRANSFER_SRC_BIT := by
  unfold augmented_usage
  have h' : (host_direction &&& HOST_WILL_READ_BIT != 0) = true := by
    simpa using h
  rw [h']
  simp only [if_true]
  exact lor_and_self _ _

/-- When the host will write, the augmented usage word carries the
transfer-destination bit. -/
theorem augmented_usage_write {host_direction : Nat} (usage : Nat)
    (h : host_direction &&& HOST_WILL_WRITE_BIT ≠ 0) :
    augmented_usage usage host_direction &&& TRANSFER_DST_BIT =
      TRANSFER_DST_BIT := by
  unfold augmented_usage
  have h' : (host_direction &&& HOST_WILL_WRITE_BIT != 0) = true := by
    simpa using h
  rw [h']
  simp only [if_true]
  by_cases hr : (host_direction &&& HOST_WILL_READ_BIT != 0) = true
  · rw [hr]
    simp only [if_true]
    exact lor_lor_and_self _ _ _
  · rw [eq_false_of_ne_true hr]
    simp only [Bool.false_eq_true, if_false]
    exact lor_and_self _ _

/-- When the strict attempt succeeds, `AccessibleBuffer` records it with
`is_host_visible = true` and an unchanged usage word. -/
theorem AccessibleBuffer.make_of_strict_ok {memTypes : List Nat}
    {typeBits usage size host_direction : Nat} {b : BufferObj}
    (h : Buffer.make memTypes typeBits usage size
      (DEVICE_LOCAL_BIT ||| HOST_VISIBLE_BIT) 0 = .ok b) :
    AccessibleBuffer.make memTypes typeBits usage size host_direction =
      .ok ⟨b, true⟩ := by
  unfold AccessibleBuffer.make
  rw [h]

/-- When the strict attempt fails, `AccessibleBuffer` is exactly the
relaxed attempt with augmented usage, marked not host visible. -/
theorem AccessibleBuffer.make_of_strict_error {memTypes : List Nat}
    {typeBits usage size host_direction : Nat} {e : String}
    (h : Buffer.make memTypes typeBits usage size
      (DEVICE_LOCAL_BIT ||| HOST_VISIBLE_BIT) 0 = .error e) :
    AccessibleBuffer.make memTypes typeBits usage size host_direction =
      (Buffer.make memTypes typeBits (augmented_usage usage host_direction)
        size DEVICE_LOCAL_BIT 0).map (fun b => ⟨b, false⟩) := by
  unfold AccessibleBuffer.make
  rw [h]
  rcases hrel : Buffer.make memTypes typeBits
      (augmented_usage usage host_direction) size DEVICE_LOCAL_BIT 0 with
    e' | b <;> simp [Except.map, hrel]

/-- **C3.** `AccessibleBuffer` construction first attempts allocation
with required flags device-local ∧ host-visible; exactly when that
attempt fails (the failure is caught, not propagated) it retries with
required flags relaxed to device-local only and with usage augmented by
the transfer-source bit if the direction includes host-read and the
transfer-destination bit if it includes host-write.  Consequently
`is_host_visible = true` iff the strict attempt succeeded, and when
`is_host_visible = false` the buffer's usage flags include the transfer
bit matching every requested access direction. -/
theorem AccessibleBuffer_fallback_spec (memTypes : List Nat)
    (typeBits usage size host_direction : Nat) :
    (∀ b, Buffer.make memTypes typeBits usage size
        (DEVICE_LOCAL_BIT ||| HOST_VISIBLE_BIT) 0 = .ok b →
      AccessibleBuffer.make memTypes typeBits usage size host_direction =
        .ok ⟨b, true⟩) ∧
    (∀ e, Buffer.make memTypes typeBits usage size
        (DEVICE_LOCAL_BIT ||| HOST_VISIBLE_BIT) 0 = .error e →
      AccessibleBuffer.make memTypes typeBits usage size host_direction =
        (Buffer.make memTypes typeBits
          (augmented_usage usage host_direction) size
          DEVICE_LOCAL_BIT 0).map (fun b => ⟨b, false⟩)) ∧
    (∀ ab, AccessibleBuffer.make memTypes typeBits usage size
        host_direction = .ok ab →
      (ab.is_host_visible = true ↔
        ∃ b, Buffer.make memTypes typeBits usage size
          (DEVICE_LOCAL_BIT ||| HOST_VISIBLE_BIT) 0 = .ok b)) ∧
    (∀ ab, AccessibleBuffer.make memTypes typeBits usage size
        host_direction = .ok ab →
      ab.is_host_visible = false →
      (host_direction &&& HOST_WILL_READ_BIT ≠ 0 →
        ab.buf.usage &&& TRANSFER_SRC_BIT = TRANSFER_SRC_BIT) ∧
      (host_direction &&& HOST_WILL_WRITE_BIT ≠ 0 →
        ab.buf.usage &&& TRANSFER_DST_BIT = TRANSFER_DST_BIT)) := by
  refine ⟨fun b hb => AccessibleBuffer.make_of_strict_ok hb,
    fun e he => AccessibleBuffer.make_of_strict_error he, ?_, ?_⟩
  · intro ab hab
    rcases hstrict : Buffer.make memTypes typeBits usage size
        (DEVICE_LOCAL_BIT ||| HOST_VISIBLE_BIT) 0 with e | b
    · rw [AccessibleBuffer.make_of_strict_error hstrict] at hab
      rcases hrel : Buffer.make memTypes typeBits
          (augmented_usage usage host_direction) size DEVICE_LOCAL_BIT 0 with
        e' | b
      · rw [hrel] at hab; exact absurd hab (by simp [Except.map])
      · rw [hrel] at hab
        obtain rfl : ab = ⟨b, false⟩ := by
          simpa [Except.map] using hab.symm
        simp [hstrict]
    · rw [AccessibleBuffer.make_of_strict_ok hstrict] at hab
      obtain rfl : ab = ⟨b, true⟩ := by simpa using hab.symm
      simp [hstrict]
  · intro ab hab hfalse
    rcases hstrict : Buffer.make memTypes typeBits usage size
        (DEVICE_LOCAL_BIT ||| HOST_VISIBLE_BIT) 0 with e | b
    · rw [AccessibleBuffer.make_of_strict_error hstrict] at hab
      rcases hrel : Buffer.make memTypes typeBits
          (augmented_usage usage host_direction) size DEVICE_LOCAL_BIT 0 with
        e' | b
      · rw [hrel] at hab; exact absurd hab (by simp [Except.map])
      · rw [hrel] at hab
        obtain rfl : ab = ⟨b, false⟩ := by
          simpa [Except.map] using hab.symm
        have husage := (Buffer.make_ok hrel).1
        refine ⟨fun hrd => ?_, fun hwr => ?_⟩
        · rw [husage]; exact augmented_usage_read usage hrd
        · rw [husage]; exact augmented_usage_write usage hwr
    · rw [AccessibleBuffer.make_of_strict_ok hstrict] at hab
      obtain rfl : ab = ⟨b, true⟩ := by simpa using hab.symm
      simp at hfalse

/-- Witness for `AccessibleBuffer_fallback_spec`: with one device-local,
non-host-visible memory type and a read+write direction, the fallback
path is taken and the resulting usage word carries both transfer bits. -/
theorem AccessibleBuffer_fallback_spec_witness :
    (3 &&& HOST_WILL_READ_BIT ≠ 0 →
      (AccessibleBufferObj.mk ⟨3, 4, 0⟩ false).buf.usage &&&
        TRANSFER_SRC_BIT = TRANSFER_SRC_BIT) ∧
    (3 &&& HOST_WILL_WRITE_BIT ≠ 0 →
      (AccessibleBufferObj.mk ⟨3, 4, 0⟩ false).buf.usage &&&
        TRANSFER_DST_BIT = TRANSFER_DST_BIT) :=
  (AccessibleBuffer_fallback_spec [1] 1 0 4 3).2.2.2
    ⟨⟨3, 4, 0⟩, false⟩ (by rfl) (by rfl)

/-- **C4.** For every successfully constructed `MaybeStagedBuffer`,
`staging_buf` is present iff the wrapped `AccessibleBuffer` ended up not
host visible; the staging buffer, when present, is a host-visible buffer
of the same byte size as the primary buffer; and `get_visible_mem`
returns the staging buffer's memory when staging is present and the
primary buffer's memory otherwise (in either case an actually allocated
buffer, never null). -/
theorem MaybeStagedBuffer_staging_spec (memTypes : List Nat)
    (typeBits stagingTypeBits usage size host_direction : Nat) :
    ∀ m ab,
      AccessibleBuffer.make memTypes typeBits usage size host_direction =
        .ok ab →
      MaybeStagedBuffer.make memTypes typeBits stagingTypeBits usage size
        host_direction = .ok m →
      m.buf = ab.buf ∧
      (m.staging_buf.isSome ↔ ab.is_host_visible = false) ∧
      (∀ sb, m.staging_buf = some sb →
        sb.size = m.buf.size ∧
        (memTypes.getD sb.mtype 0) &&& HOST_VISIBLE_BIT = HOST_VISIBLE_BIT ∧
        m.get_visible_mem = sb) ∧
      (m.staging_buf = none → m.get_visible_mem = m.buf) := by
  intro m ab hab hm
  have habsize : ab.buf.size = size := by
    rcases hstrict : Buffer.make memTypes typeBits usage size
        (DEVICE_LOCAL_BIT ||| HOST_VISIBLE_BIT) 0 with e' | b
    · rw [AccessibleBuffer.make_of_strict_error hstrict] at hab
      rcases hrel : Buffer.make memTypes typeBits
          (augmented_usage usage host_direction) size DEVICE_LOCAL_BIT 0 with
        e'' | b
      · rw [hrel] at hab; exact absurd hab (by simp [Except.map])
      · rw [hrel] at hab
        obtain rfl : ab = ⟨b, false⟩ := by
          simpa [Except.map] using hab.symm
        exact (Buffer.make_ok hrel).2.1
    · rw [AccessibleBuffer.make_of_strict_ok hstrict] at hab
      obtain rfl : ab = ⟨b, true⟩ := by simpa using hab.symm
      exact (Buffer.make_ok hstrict).2.1
  unfold MaybeStagedBuffer.make at hm
  rw [hab] at hm
  by_cases hv : ab.is_host_visible
  · simp only [hv, if_true] at hm
    obtain rfl : m = ⟨ab.buf, none⟩ := by simpa using hm.symm
    refine ⟨rfl, by simp [hv], by simp, fun _ => rfl⟩
  · have hv' : ab.is_host_visible = false := by simpa using hv
    simp only [hv', Bool.false_eq_true, if_false] at hm
    rcases hsb : Buffer.make memTypes stagingTypeBits
        (staging_usage host_direction) size HOST_VISIBLE_BIT 0 with e | sb
    · rw [hsb] at hm; exact absurd hm (by simp)
    · rw [hsb] at hm
      obtain rfl : m = ⟨ab.buf, some sb⟩ := by simpa using hm.symm
      obtain ⟨-, hsbsize, -, -, hsbflags⟩ := Buffer.make_ok hsb
      refine ⟨rfl, by simpa using hv, ?_, by simp⟩
      intro sb' hsb'
      obtain rfl : sb = sb' := by simpa using hsb' 
      refine ⟨?_, hsbflags, rfl⟩
      show sb.size = ab.buf.size
      rw [hsbsize, habsize]

/-- Witness for `MaybeStagedBuffer_staging_spec`: memory type 0 is
device-local only, type 1 host-visible only; the primary buffer lands in
type 0 (not host visible) and a staging buffer of equal size is
allocated in type 1. -/
theorem MaybeStagedBuffer_staging_spec_witness :
    (MaybeStagedBufferObj.mk ⟨3, 4, 0⟩ (some ⟨3, 4, 1⟩)).buf =
        (AccessibleBufferObj.mk ⟨3, 4, 0⟩ false).buf ∧
      ((MaybeStagedBufferObj.mk ⟨3, 4, 0⟩ (some ⟨3, 4, 1⟩)).staging_buf.isSome
        ↔ (AccessibleBufferObj.mk ⟨3, 4, 0⟩ false).is_host_visible = false) ∧
      (∀ sb, (MaybeStagedBufferObj.mk ⟨3, 4, 0⟩
          (some ⟨3, 4, 1⟩)).staging_buf = some sb →
        sb.size = (MaybeStagedBufferObj.mk ⟨3, 4, 0⟩
          (some ⟨3, 4, 1⟩)).buf.size ∧
        ([1, 2].getD sb.mtype 0) &&& HOST_VISIBLE_BIT = HOST_VISIBLE_BIT ∧
        (MaybeStagedBufferObj.mk ⟨3, 4, 0⟩
          (some ⟨3, 4, 1⟩)).get_visible_mem = sb) ∧
      ((MaybeStagedBufferObj.mk ⟨3, 4, 0⟩
          (some ⟨3, 4, 1⟩)).staging_buf = none →
        (MaybeStagedBufferObj.mk ⟨3, 4, 0⟩
          (some ⟨3, 4, 1⟩)).get_visible_mem =
          (MaybeStagedBufferObj.mk ⟨3, 4, 0⟩ (some ⟨3, 4, 1⟩)).buf) :=
  MaybeStagedBuffer_staging_spec [1, 2] 1 2 0 4 3
    ⟨⟨3, 4, 0⟩, some ⟨3, 4, 1⟩⟩ ⟨⟨3, 4, 0⟩, false⟩ (by rfl) (by rfl)

/-! ### `WorkGroupSplit` (`shadow_processor.cpp`, lines 503-513)

The constructor computes, in `uint32_t` arithmetic,
`num_groups = work_size / limit + (work_size % limit > 0)` and
`group_x_size = work_size / num_groups + (work_size % num_groups > 0)`
with `limit = max(maxComputeWorkGroupInvocations,
maxComputeWorkGroupSize[0])`.  C++ division by zero is undefined
behaviour, so the embedding guards each division and returns `none`
when a divisor is zero; on every defined input the arithmetic is exact
(`Nat`). -/

structure DeviceLimits where
  maxComputeWorkGroupInvocations : Nat
  maxComputeWorkGroupSize0 : Nat

structure WorkGroupSplit where
  group_x_size : Nat
  num_groups : Nat
  deriving DecidableEq

/-- `WorkGroupSplit::WorkGroupSplit(dlimits, work_size)`. -/
def WorkGroupSplit.make (dlimits : DeviceLimits) (work_size : Nat) :
    Option WorkGroupSplit :=
  let limit := max dlimits.maxComputeWorkGroupInvocations
    dlimits.maxComputeWorkGroupSize0
  if limit = 0 then none
  else
    let num_groups := work_size / limit +
      (if 0 < work_size % limit then 1 else 0)
    if num_groups = 0 then none
    else some ⟨work_size / num_groups +
      (if 0 < work_size % num_groups then 1 else 0), num_groups⟩

theorem ceil_expr_eq (a b : Nat) (hb : 0 < b) :
    a / b + (if 0 < a % b then 1 else 0) = (a + b - 1) / b := by
  have hqr := Nat.div_add_mod a b
  have hrb := Nat.mod_lt a hb
  by_cases hr : 0 < a % b
  · simp only [hr, if_true]
    have hx : b * (a / b + 1) = b * (a / b) + b := by ring
    have e : a + b - 1 = (a % b - 1) + b * (a / b + 1) := by omega
    rw [e, Nat.add_mul_div_left _ _ hb,
      Nat.div_eq_of_lt (show a % b - 1 < b by omega)]
    omega
  · simp only [hr, if_false]
    have e : a + b - 1 = (b - 1) + b * (a / b) := by omega
    rw [e, Nat.add_mul_div_left _ _ hb,
      Nat.div_eq_of_lt (show b - 1 < b by omega)]
    omega

theorem le_mul_ceil_expr (a b : Nat) (hb : 0 < b) :
    a ≤ b * (a / b + if 0 < a % b then 1 else 0) := by
  have hqr := Nat.div_add_mod a b
  have hrb := Nat.mod_lt a hb
  by_cases hr : 0 < a % b
  · simp only [hr, if_true]
    have hx : b * (a / b + 1) = b * (a / b) + b := by ring
    omega
  · simp only [hr, if_false]
    have hx : b * (a / b + 0) = b * (a / b) := by ring
    omega

theorem ceil_expr_le (a b c : Nat) (hb : 0 < b) (h : a ≤ b * c) :
    a / b + (if 0 < a % b then 1 else 0) ≤ c := by
  have hqr := Nat.div_add_mod a b
  have hrb := Nat.mod_lt a hb
  by_cases hr : 0 < a % b
  · simp only [hr, if_true]
    by_contra hc
    have hcq : c ≤ a / b := by omega
    have : b * c ≤ b * (a / b) := Nat.mul_le_mul_left b hcq
    omega
  · simp only [hr, if_false, Nat.add_zero]
    have hmul : b * (a / b) ≤ b * c := by omega
    exact Nat.le_of_mul_le_mul_left hmul hb

theorem one_le_ceil_expr (a b : Nat) (ha : 0 < a) :
    1 ≤ a / b + (if 0 < a % b then 1 else 0) := by
  by_cases hr : 0 < a % b
  · simp [hr]
  · simp only [hr, if_false, Nat.add_zero]
    have hqr := Nat.div_add_mod a b
    rcases Nat.eq_zero_or_pos (a / b) with h0 | h1
    · rw [h0] at hqr; simp at hqr; omega
    · exact h1

/-- **C5.** For every `work_size ≥ 1` and device limits with
`L = max(maxComputeWorkGroupInvocations, maxComputeWorkGroupSize[0]) ≥ 1`,
`WorkGroupSplit` computes `num_groups = ⌈work_size / L⌉` and
`group_x_size = ⌈work_size / num_groups⌉`, and these satisfy
`num_groups ≥ 1`, `group_x_size ≤ L` and
`num_groups * group_x_size ≥ work_size`, in exact integer arithmetic. -/
theorem WorkGroupSplit_spec (dlimits : DeviceLimits) (work_size : Nat)
    (hws : 1 ≤ work_size)
    (hl : 1 ≤ max dlimits.maxComputeWorkGroupInvocations
      dlimits.maxComputeWorkGroupSize0) :
    ∃ w, WorkGroupSplit.make dlimits work_size = some w ∧
      w.num_groups = (work_size + max dlimits.maxComputeWorkGroupInvocations
        dlimits.maxComputeWorkGroupSize0 - 1) /
        max dlimits.maxComputeWorkGroupInvocations
          dlimits.maxComputeWorkGroupSize0 ∧
      w.group_x_size = (work_size + w.num_groups - 1) / w.num_groups ∧
      1 ≤ w.num_groups ∧
      w.group_x_size ≤ max dlimits.maxComputeWorkGroupInvocations
        dlimits.maxComputeWorkGroupSize0 ∧
      work_size ≤ w.num_groups * w.group_x_size := by
  set L := max dlimits.maxComputeWorkGroupInvocations
    dlimits.maxComputeWorkGroupSize0 with hLdef
  have hL : 0 < L := hl
  set ng := work_size / L + (if 0 < work_size % L then 1 else 0) with hngdef
  have hng : 0 < ng := one_le_ceil_expr work_size L hws
  set gx := work_size / ng + (if 0 < work_size % ng then 1 else 0) with hgxdef
  refine ⟨⟨gx, ng⟩, ?_, ?_, ?_, hng, ?_, ?_⟩
  · rw [WorkGroupSplit.make]
    simp only [← hLdef, ← hngdef, ← hgxdef]
    rw [if_neg (by omega), if_neg (by omega)]
  · exact ceil_expr_eq work_size L hL
  · exact ceil_expr_eq work_size ng hng
  · exact ceil_expr_le work_size ng L hng
      (le_of_le_of_eq (le_mul_ceil_expr work_size L hL) (Nat.mul_comm L ng))
  · exact le_mul_ceil_expr work_size ng hng

/-- Witness for `WorkGroupSplit_spec`: a device limit of 4 and a work
size of 5 split into 2 groups of 3 invocations. -/
theorem WorkGroupSplit_spec_witness :
    ∃ w, WorkGroupSplit.make ⟨4, 2⟩ 5 = some w ∧
      w.num_groups = (5 + max 4 2 - 1) / max 4 2 ∧
      w.group_x_size = (5 + w.num_groups - 1) / w.num_groups ∧
      1 ≤ w.num_groups ∧
      w.group_x_size ≤ max 4 2 ∧
      5 ≤ w.num_groups * w.group_x_size :=
  WorkGroupSplit_spec ⟨4, 2⟩ 5 (by decide) (by decide)

/-- **C10.** `WorkGroupSplit` is well defined only under the
precondition `work_size ≥ 1`: when `work_size = 0`, `num_groups` is
computed as `0` and the subsequent computation of `group_x_size`
divides by zero (undefined behaviour, `none` in the embedding); under
`work_size ≥ 1` (and a nonzero device limit) the divisor `num_groups`
is always positive and both divisions are defined. -/
theorem WorkGroupSplit_zero_work_size (dlimits : DeviceLimits) :
    WorkGroupSplit.make dlimits 0 = none ∧
    ∀ work_size, 1 ≤ work_size →
      1 ≤ max dlimits.maxComputeWorkGroupInvocations
        dlimits.maxComputeWorkGroupSize0 →
      (WorkGroupSplit.make dlimits work_size).isSome := by
  constructor
  · rw [WorkGroupSplit.make]
    by_cases hL : max dlimits.maxComputeWorkGroupInvocations
        dlimits.maxComputeWorkGroupSize0 = 0
    · rw [if_pos hL]
    · rw [if_neg hL]
      simp
  · intro work_size hws hl
    obtain ⟨w, hw, -⟩ := WorkGroupSplit_spec dlimits work_size hws hl
    rw [hw]
    rfl

/-- Witness for `WorkGroupSplit_zero_work_size`: a zero work size is
undefined, while work size 5 with limit 4 is defined. -/
theorem WorkGroupSplit_zero_work_size_witness :
    WorkGroupSplit.make ⟨4, 2⟩ 0 = none ∧
      (WorkGroupSplit.make ⟨4, 2⟩ 5).isSome :=
  ⟨(WorkGroupSplit_zero_work_size ⟨4, 2⟩).1,
    (WorkGroupSplit_zero_work_size ⟨4, 2⟩).2 5 (by decide) (by decide)⟩

/-! ### `ShadowProcessor::accumulate_result` (`shadow_processor.cpp`,
lines 1035-1044)

For each task slot of the pool, the result buffer is mapped and each of
its first `num_points` entries is added (`+=`) into the caller's
accumulator.  The machine `float`/`double` values are modelled as exact
rationals (the claim is about the accumulation structure, not rounding);
a slot's mapped result buffer and the caller's accumulator are modelled
as functions from index to value. -/

/-- The inner loop of `accumulate_result` for one slot `t` of the pool:
`for(i = 0; i < num_points; ++i) accum[i] += ptr[i]`. -/
def accumulate_slot (num_points : Nat) (res : Nat → ℚ) (accum : Nat → ℚ) :
    Nat → ℚ :=
  (List.range num_points).foldl
    (fun a i => Function.update a i (a i + res i)) accum

/-- `ShadowProcessor::accumulate_result(accum)`: the outer loop over
`task_pool`, where `task_pool` is the list of the slots' result-buffer
contents. -/
def ShadowProcessor.accumulate_result (num_points : Nat)
    (task_pool : List (Nat → ℚ)) (accum : Nat → ℚ) : Nat → ℚ :=
  task_pool.foldl (fun a t => accumulate_slot num_points t a) accum

theorem accumulate_slot_apply (res : Nat → ℚ) (np : Nat) :
    ∀ (accum : Nat → ℚ) (j : Nat),
      accumulate_slot np res accum j =
        if j < np then accum j + res j else accum j := by
  induction np with
  | zero => intro accum j; simp [accumulate_slot]
  | succ n IH =>
    intro accum j
    rw [accumulate_slot, List.range_succ, List.foldl_append]
    simp only [List.foldl_cons, List.foldl_nil]
    rw [show (List.range n).foldl
        (fun a i => Function.update a i (a i + res i)) accum =
        accumulate_slot n res accum from rfl]
    by_cases hj : j = n
    · subst hj
      rw [Function.update_same, IH]
      simp [lt_irrefl]
    · rw [Function.update_noteq hj, IH]
      by_cases hlt : j < n
      · simp [hlt, Nat.lt_succ_of_lt hlt]
      · have hn : ¬ j < n + 1 := by omega
        simp [hlt, hn]

theorem accumulate_result_apply (np : Nat) (pool : List (Nat → ℚ)) :
    ∀ (accum : Nat → ℚ) (j : Nat),
      ShadowProcessor.accumulate_result np pool accum j =
        if j < np then accum j + (pool.map (fun t => t j)).sum
        else accum j := by
  induction pool with
  | nil =>
    intro accum j
    simp [ShadowProcessor.accumulate_result]
  | cons t rest IH =>
    intro accum j
    rw [ShadowProcessor.accumulate_result, List.foldl_cons]
    rw [show rest.foldl (fun a t => accumulate_slot np t a)
        (accumulate_slot np t accum) =
        ShadowProcessor.accumulate_result np rest
          (accumulate_slot np t accum) from rfl]
    rw [IH, accumulate_slot_apply]
    by_cases hj : j < np <;> simp [hj, add_assoc]

/-- **C7.** `ShadowProcessor::accumulate_result(accum)` never
overwrites the caller's accumulator: for every index `i < num_points`
the final value of `accum[i]` equals its value before the call plus the
sum over all task slots in the pool of that slot's `i`-th result-buffer
element (always `+=`), so multiple slots and devices can contribute to
one shared result; entries of `accum` at indices `≥ num_points` are
unchanged. -/
theorem ShadowProcessor_accumulate_result_spec (num_points : Nat)
    (task_pool : List (Nat → ℚ)) (accum : Nat → ℚ) :
    (∀ i, i < num_points →
      ShadowProcessor.accumulate_result num_points task_pool accum i =
        accum i + (task_pool.map (fun t => t i)).sum) ∧
    (∀ i, num_points ≤ i →
      ShadowProcessor.accumulate_result num_points task_pool accum i =
        accum i) := by
  constructor
  · intro i hi
    rw [accumulate_result_apply, if_pos hi]
  · intro i hi
    rw [accumulate_result_apply, if_neg (by omega)]

/-- Witness for `ShadowProcessor_accumulate_result_spec`: a two-slot
pool over two points, accumulated into a nonzero accumulator. -/
theorem ShadowProcessor_accumulate_result_spec_witness :
    ShadowProcessor.accumulate_result 2
        [fun i => (i : ℚ) + 1, fun _ => (3 : ℚ)] (fun i => (i : ℚ)) 1 =
        (fun i => (i : ℚ)) 1 +
          (([fun i => (i : ℚ) + 1, fun _ => (3 : ℚ)]).map
            (fun t => t 1)).sum ∧
    ShadowProcessor.accumulate_result 2
        [fun i => (i : ℚ) + 1, fun _ => (3 : ℚ)] (fun i => (i : ℚ)) 7 =
        (fun i => (i : ℚ)) 7 :=
  ⟨(ShadowProcessor_accumulate_result_spec 2
      [fun i => (i : ℚ) + 1, fun _ => (3 : ℚ)] (fun i => (i : ℚ))).1
      1 (by decide),
    (ShadowProcessor_accumulate_result_spec 2
      [fun i => (i : ℚ) + 1, fun _ => (3 : ℚ)] (fun i => (i : ℚ))).2
      7 (by decide)⟩

/-! ### `ShadowProcessor::process` running totals

`src-host/main.cpp` (the current revision) drives the processors with
`p->process(suns_direction, val)` and reads back
`get_directional_sum()`, `get_diffuse_sum()`, `get_time_sum()` and
`get_process_count()` (`main.cpp`, lines 82 and 507-511), but the
`shadow_processor.{hpp,cpp}` files shipped alongside it are an earlier
revision whose `process` takes only an `AngularPosition` and keeps only
`sum`/`count`; the revision of `ShadowProcessor` that `main.cpp` is
written against is not among the sources.  The totals update is
therefore modelled from the spec (§4.5, step 1). -/

/-- A 3-vector of exact rationals standing for the `Vec3` of `float`s. -/
abbrev Vec3 := ℚ × ℚ × ℚ

/-- `InstantaneousData` (`sun_position.h`): the irradiance sample fields
used by the totals update (the angular position is converted to the
Cartesian `suns_direction` before the call). -/
structure InstantaneousData where
  coefficient : ℚ
  direct_power : ℚ
  indirect_power : ℚ
  deriving DecidableEq

/-- The four running totals of a `ShadowProcessor`. -/
structure ProcSums where
  sum : Vec3
  dif_sum : ℚ
  time_sum : ℚ
  count : Nat
  deriving DecidableEq

/-- Modelled from the spec: the totals update performed at the start of
every call to the current `ShadowProcessor::process(suns_direction,
sample)` (the matching `shadow_processor.cpp` revision is missing from
the sources; only its caller `main.cpp` is present): directional-energy
sum `+= sample.coefficient * sample.direct_power * sunDirection`,
diffuse sum `+= coefficient * indirect_power`, elapsed sun-time sum
`+= coefficient`, sample count `+= 1`. -/
def process_totals (s : ProcSums) (suns_direction : Vec3)
    (sample : InstantaneousData) : ProcSums :=
  { sum := s.sum + (sample.coefficient * sample.direct_power) • suns_direction,
    dif_sum := s.dif_sum + sample.coefficient * sample.indirect_power,
    time_sum := s.time_sum + sample.coefficient,
    count := s.count + 1 }

/-- A sequence of `process` calls (each a direction/sample pair). -/
def process_totals_run (s : ProcSums) :
    List (Vec3 × InstantaneousData) → ProcSums
  | [] => s
  | p :: rest => process_totals_run (process_totals s p.1 p.2) rest

/-- **C6.** Every call to `ShadowProcessor::process` updates the running
totals, before dispatching, as follows: the directional-energy sum
increases by `sample.coefficient * sample.direct_power * sunDirection`,
the diffuse-energy sum increases by `coefficient * indirect_power`, the
elapsed sun-time sum increases by `coefficient`, and the sample count
increases by exactly 1; hence over a whole run the totals are the sums
of the per-sample contributions. -/
theorem process_totals_spec (s : ProcSums) (dir : Vec3)
    (sample : InstantaneousData) :
    ((process_totals s dir sample).sum =
        s.sum + (sample.coefficient * sample.direct_power) • dir ∧
      (process_totals s dir sample).dif_sum =
        s.dif_sum + sample.coefficient * sample.indirect_power ∧
      (process_totals s dir sample).time_sum =
        s.time_sum + sample.coefficient ∧
      (process_totals s dir sample).count = s.count + 1) ∧
    ∀ l : List (Vec3 × InstantaneousData),
      (process_totals_run s l).count = s.count + l.length ∧
      (process_totals_run s l).time_sum =
        s.time_sum + (l.map (fun p => p.2.coefficient)).sum ∧
      (process_totals_run s l).dif_sum =
        s.dif_sum +
          (l.map (fun p => p.2.coefficient * p.2.indirect_power)).sum ∧
      (process_totals_run s l).sum =
        s.sum + (l.map (fun p =>
          (p.2.coefficient * p.2.direct_power) • p.1)).sum := by
  refine ⟨⟨rfl, rfl, rfl, rfl⟩, ?_⟩
  intro l
  induction l generalizing s with
  | nil => simp [process_totals_run]
  | cons p rest IH =>
    obtain ⟨hc, ht, hd, hs⟩ := IH (process_totals s p.1 p.2)
    rw [process_totals_run]
    refine ⟨?_, ?_, ?_, ?_⟩
    · rw [hc]; simp [process_totals]; omega
    · rw [ht]; simp [process_totals, add_assoc]
    · rw [hd]; simp [process_totals, add_assoc]
    · rw [hs]; simp [process_totals, add_assoc]

/-! ### `create_procs_from_devices` (`main.cpp`, lines 201-241)

Each enumerated physical device is represented by the outcome of its
`create_if_has_graphics` setup task: `.ok p` when construction of a
`ShadowProcessor` succeeds, `.error ()` when it throws (any
`std::exception`, e.g. `NoComputeQueueFamily` or `NoSuitableMemory`
escaping the per-device constructor).  Console printing is not
modelled; the final `exit(1)` is the `.error` result of the whole
function. -/

/-- The launch loop of `create_procs_from_devices` (`main.cpp`, lines
216-221): `for(auto &pd: pds) { create_work.push_back(std::async(...));
break; }` — the unconditional `break` at line 220 launches a setup task
only for the first enumerated device. -/
def launch_setup_tasks {α : Type} : List α → List α
  | [] => []
  | pd :: _ => [pd]

/-- `create_procs_from_devices` (`main.cpp`, lines 201-241): collect the
launched tasks' results, catching (and dropping) per-device exceptions,
then `exit(1)` when the resulting pool is empty. -/
def create_procs_from_devices {P : Type}
    (devices : List (Except Unit P)) : Except Unit (List P) :=
  let create_work := launch_setup_tasks devices
  let processors := create_work.foldl
    (fun acc f => match f with
      | .ok p => acc ++ [p]
      | .error _ => acc) []
  if processors.isEmpty then .error () else .ok processors

/-- **C9.** The claim says per-device construction is attempted for
*every* enumerated physical device and a thrown exception drops only
that device.  The code violates this: the unconditional `break` at
`main.cpp` line 220 makes the enumeration loop launch setup for the
first device only.  At the failing input — two enumerated devices, the
first of which throws during construction while the second would
succeed — the pool ends up empty and the process exits with an error,
although by the claim the second device's processor should be kept.
The same successful device alone does produce a pool, confirming that
the early exit, and not the per-device catch, is what drops it. -/
theorem create_procs_from_devices_break_bug :
    create_procs_from_devices [Except.error (), Except.ok (0 : Nat)] =
        .error () ∧
      create_procs_from_devices [Except.ok (0 : Nat)] = .ok [0] := by
  constructor <;> rfl

/-! ### The fence-gated task-slot pool (`shadow_processor.cpp`)

State of one `ShadowProcessor`'s slot pool: the signal state of each
slot's fence (`fence_set`, index-aligned with `task_pool`) and the
FIFO of available slot indices (`available_slots`, a `std::queue`:
front of the list is the next index popped).  The device queue signals
fences asynchronously; that is the `signalFence` transition.  The
slot-management part of `ShadowProcessor::process` (lines 1006-1032) is
`processSlotStep`: when the FIFO is empty it waits on the whole fence
set (returning only once at least one fence is signaled — `none` models
the wait never returning) and pushes every currently-signaled index,
then pops the front index, resets exactly that fence and calls
`compute_frame` on that slot. -/

structure SlotPoolState where
  fences : List Bool
  available_slots : List Nat
  deriving DecidableEq

/-- Pool state established by `ShadowProcessor::ShadowProcessor`
(lines 582-590): each fence is created in the signaled state
(`VK_FENCE_CREATE_SIGNALED_BIT`, line 259) and each slot's index is
pushed onto the FIFO in creation order. -/
def initPool (n : Nat) : SlotPoolState :=
  ⟨List.replicate n true, List.range n⟩

/-- Device-side completion: the queue signals the fence of slot `i`
once that slot's submitted command buffer finishes. -/
def signalFence (s : SlotPoolState) (i : Nat) : SlotPoolState :=
  { s with fences := s.fences.set i true }

/-- The slot acquisition/dispatch portion of `ShadowProcessor::process`
(lines 1006-1032).  Returns the successor state and the dispatched slot
index, or `none` when the FIFO is empty and no fence is ever signaled
(the `vkWaitForFences` retry loop never returns).  The scan after a
successful wait pushes every currently-signaled slot index, in index
order, onto the (empty) FIFO; popping resets exactly the popped slot's
fence before `compute_frame` is submitted to it. -/
def processSlotStep (s : SlotPoolState) : Option (SlotPoolState × Nat) :=
  let avail := if s.available_slots.isEmpty then
      (List.range s.fences.length).filter (fun i => s.fences.getD i false)
    else s.available_slots
  match avail with
  | [] => none
  | t :: rest => some (⟨s.fences.set t false, rest⟩, t)

/-- States reachable by interleaving device-side fence completions with
calls to `process` (only a fence that is actually reset — i.e. has work
in flight — can be signaled by the device). -/
inductive PoolReach (n : Nat) : SlotPoolState → Prop
  | init : PoolReach n (initPool n)
  | signal (s : SlotPoolState) (i : Nat) : PoolReach n s →
      i < s.fences.length → s.fences.getD i false = false →
      PoolReach n (signalFence s i)
  | step (s s' : SlotPoolState) (t : Nat) : PoolReach n s →
      processSlotStep s = some (s', t) → PoolReach n s'

/-- The pool invariant: the fence vector keeps its size, and the FIFO
holds only in-range indices of signaled slots, each at most once. -/
def poolInv (n : Nat) (s : SlotPoolState) : Prop :=
  s.fences.length = n ∧
  s.available_slots.Nodup ∧
  ∀ i ∈ s.available_slots, i < n ∧ s.fences.getD i false = true

theorem poolInv_init (n : Nat) : poolInv n (initPool n) := by
  refine ⟨by simp [initPool], by simp [initPool, List.nodup_range], ?_⟩
  intro i hi
  rw [initPool] at hi
  simp only [List.mem_range] at hi
  exact ⟨hi, by simp [initPool, List.getD_eq_getElem?_getD,
    List.getElem?_replicate, hi]⟩

theorem poolInv_signal (n : Nat) (s : SlotPoolState) (i : Nat)
    (h : poolInv n s) : poolInv n (signalFence s i) := by
  obtain ⟨hlen, hnd, hmem⟩ := h
  refine ⟨by simp [signalFence, hlen], hnd, ?_⟩
  intro j hj
  obtain ⟨hjn, hjs⟩ := hmem j hj
  refine ⟨hjn, ?_⟩
  by_cases hij : i = j
  · subst hij
    by_cases hin : i < s.fences.length
    · simp [signalFence, List.getD_eq_getElem?_getD,
        List.getElem?_set_self, hin]
    · rw [signalFence]
      simp only []
      rw [List.set_eq_of_length_le (by omega)]
      exact hjs
  · simpa [signalFence, List.getD_eq_getElem?_getD,
      List.getElem?_set_ne hij] using hjs

/-- Popping the front of a FIFO of signaled in-range indices and
resetting that fence preserves the invariant. -/
theorem pop_spec (fences : List Bool) (t : Nat) (rest : List Nat) (n : Nat)
    (hlen : fences.length = n) (hnd : (t :: rest).Nodup)
    (hmem : ∀ i ∈ t :: rest, i < n ∧ fences.getD i false = true) :
    poolInv n ⟨fences.set t false, rest⟩ ∧ t < n ∧
      fences.getD t false = true := by
  obtain ⟨htn, hts⟩ := hmem t (by simp)
  refine ⟨⟨by simp [hlen], hnd.of_cons, ?_⟩, htn, hts⟩
  intro j hj
  obtain ⟨hjn, hjs⟩ := hmem j (List.mem_cons_of_mem t hj)
  have hjt : t ≠ j := fun hc => (List.nodup_cons.mp hnd).1 (hc ▸ hj)
  exact ⟨hjn, by simpa [List.getD_eq_getElem?_getD,
    List.getElem?_set_ne hjt] using hjs⟩

theorem processSlotStep_spec (n : Nat) (s : SlotPoolState)
    (h : poolInv n s) :
    ∀ s' t, processSlotStep s = some (s', t) →
      poolInv n s' ∧ t < n ∧ s.fences.getD t false = true ∧
        s'.fences = s.fences.set t false := by
  obtain ⟨hlen, hnd, hmem⟩ := h
  intro s' t hstep
  by_cases hemp : s.available_slots.isEmpty
  · simp only [processSlotStep, hemp, if_true] at hstep
    rcases hfil : (List.range s.fences.length).filter
        (fun i => s.fences.getD i false) with _ | ⟨t0, rest⟩
    · rw [hfil] at hstep
      exact absurd hstep (by simp)
    · rw [hfil] at hstep
      simp only [Option.some.injEq, Prod.mk.injEq] at hstep
      obtain ⟨hs', ht⟩ := hstep
      subst ht
      have hndfil : (t0 :: rest).Nodup := by
        rw [← hfil]
        exact (List.nodup_range s.fences.length).filter _
      have hmemfil : ∀ j ∈ t0 :: rest,
          j < n ∧ s.fences.getD j false = true := by
        intro j hj
        rw [← hfil] at hj
        have hjf := List.mem_filter.mp hj
        exact ⟨by rw [← hlen]; exact List.mem_range.mp hjf.1, hjf.2⟩
      obtain ⟨hinv, htn, hts⟩ :=
        pop_spec s.fences t0 rest n hlen hndfil hmemfil
      exact ⟨hs' ▸ hinv, htn, hts, by rw [← hs']⟩
  · have hemp' : s.available_slots.isEmpty = false := by
      simpa using hemp
    simp only [processSlotStep, hemp', Bool.false_eq_true, if_false]
      at hstep
    rcases havail : s.available_slots with _ | ⟨t0, rest⟩
    · rw [havail] at hemp'
      simp at hemp'
    · rw [havail] at hstep
      simp only [Option.some.injEq, Prod.mk.injEq] at hstep
      obtain ⟨hs', ht⟩ := hstep
      subst ht
      have hndc : (t0 :: rest).Nodup := by rw [← havail]; exact hnd
      have hmemc : ∀ j ∈ t0 :: rest,
          j < n ∧ s.fences.getD j false = true := by
        intro j hj
        exact hmem j (by rw [havail]; exact hj)
      obtain ⟨hinv, htn, hts⟩ :=
        pop_spec s.fences t0 rest n hlen hndc hmemc
      exact ⟨hs' ▸ hinv, htn, hts, by rw [← hs']⟩

theorem poolInv_reach (n : Nat) (s : SlotPoolState) (h : PoolReach n s) :
    poolInv n s := by
  induction h with
  | init => exact poolInv_init n
  | signal s i _ _ _ IH => exact poolInv_signal n s i IH
  | step s s' t _ hstep IH =>
    exact ((processSlotStep_spec n s IH) s' t hstep).1

/-- **C1.** Task-slot reuse is fence gated: in every state reachable by
repeated calls to `ShadowProcessor::process` (interleaved with
device-side fence completions) on an N-slot pool, the available-slots
FIFO contains only in-range indices of slots whose fence is signaled,
each index at most once; at no point are more than N slots
simultaneously in flight (fence unsignaled); and whenever `process`
dispatches, the popped slot's fence was signaled (its previous
submission completed) before being reset, that fence is the only one
reset, and `compute_frame` is invoked exactly on that slot. -/
theorem slot_pool_fence_gated (n : Nat) (s : SlotPoolState)
    (h : PoolReach n s) :
    (s.available_slots.Nodup ∧
      ∀ i ∈ s.available_slots, i < n ∧ s.fences.getD i false = true) ∧
    (s.fences.filter (fun b => b = false)).length ≤ n ∧
    (∀ s' t, processSlotStep s = some (s', t) →
      t < n ∧
      s.fences.getD t false = true ∧
      s'.fences.getD t false = false ∧
      ∀ i, i ≠ t → s'.fences.getD i false = s.fences.getD i false) := by
  obtain ⟨hlen, hnd, hmem⟩ := poolInv_reach n s h
  refine ⟨⟨hnd, hmem⟩, ?_, ?_⟩
  · calc (s.fences.filter (fun b => b = false)).length
        ≤ s.fences.length := List.length_filter_le _ _
      _ = n := hlen
  · intro s' t hstep
    obtain ⟨-, htn, hts, hf⟩ :=
      processSlotStep_spec n s ⟨hlen, hnd, hmem⟩ s' t hstep
    refine ⟨htn, hts, ?_, ?_⟩
    · rw [hf]
      simp [List.getD_eq_getElem?_getD, List.getElem?_set_self,
        hlen ▸ htn]
    · intro i hit
      rw [hf]
      simp [List.getD_eq_getElem?_getD,
        List.getElem?_set_ne (fun hh => hit hh.symm)]

/-- Witness for `slot_pool_fence_gated`: the freshly constructed 2-slot
pool; its first `process` call dispatches slot 0 after verifying its
fence is signaled. -/
theorem slot_pool_fence_gated_witness :
    ((initPool 2).available_slots.Nodup ∧
      ∀ i ∈ (initPool 2).available_slots,
        i < 2 ∧ (initPool 2).fences.getD i false = true) ∧
    ((initPool 2).fences.filter (fun b => b = false)).length ≤ 2 ∧
    (∀ s' t, processSlotStep (initPool 2) = some (s', t) →
      t < 2 ∧
      (initPool 2).fences.getD t false = true ∧
      s'.fences.getD t false = false ∧
      ∀ i, i ≠ t → s'.fences.getD i false =
        (initPool 2).fences.getD i false) :=
  slot_pool_fence_gated 2 (initPool 2) PoolReach.init

/-! ### The yearly-incidence orchestrator (`main.cpp`, lines 40-109)

`calculate_yearly_incidence` runs one producer (the main thread) and one
consumer thread per `ShadowProcessor`, connected by a single-producer
concurrent FIFO queue and a counting semaphore (`src/semaphore.hpp`, a
standard counting semaphore: `wait` blocks until the count is positive
and decrements it; `signal(n)` adds `n`).

The interleaved small-step semantics: the producer alternates
`queue.enqueue(t, val)` / `sem.signal()` for each sample of the
`SunSequence` (`toSignal` records an enqueue whose signal is still
pending), then performs the single `sem.signal(jobs.size())` poison-pill
signal (`pillsDone`).  Each consumer is either about to wait (`idle`),
between a successful wait and its dequeue attempt (`postWait`), or has
broken out of its loop (`exited`); a successful dequeue appends the
sample to that consumer's `processed` list (its `process` call) and
loops, a failed dequeue after a successful wait exits the loop.
Samples are abstracted by an arbitrary type `α`. -/

inductive CPhase
  | idle
  | postWait
  | exited
  deriving DecidableEq

structure Consumer (α : Type) where
  phase : CPhase
  processed : List α

structure OrchState (α : Type) (C : Nat) where
  pending : List α
  toSignal : Bool
  pillsDone : Bool
  sem : Nat
  queue : List α
  consumers : Fin C → Consumer α

/-- The state at the start of `calculate_yearly_incidence`: the whole
sample sequence still pending, empty queue, semaphore at zero, all
consumer threads about to wait. -/
def initOrch (α : Type) (samples : List α) (C : Nat) : OrchState α C :=
  ⟨samples, false, false, 0, [], fun _ => ⟨.idle, []⟩⟩

/-- One atomic step of the orchestrator (producer statement, semaphore
operation, or consumer loop iteration fragment). -/
inductive OStep {α : Type} {C : Nat} :
    OrchState α C → OrchState α C → Prop
  | enqueue (s : OrchState α C) (x : α) (rest : List α) :
      s.pending = x :: rest → s.toSignal = false →
      OStep s { s with pending := rest
                       queue := s.queue ++ [x]
                       toSignal := true }
  | signalOne (s : OrchState α C) : s.toSignal = true →
      OStep s { s with toSignal := false
                       sem := s.sem + 1 }
  | signalPills (s : OrchState α C) : s.pending = [] →
      s.toSignal = false → s.pillsDone = false →
      OStep s { s with sem := s.sem + C
                       pillsDone := true }
  | wait (s : OrchState α C) (c : Fin C) :
      (s.consumers c).phase = .idle → 0 < s.sem →
      OStep s { s with sem := s.sem - 1
                       consumers := Function.update s.consumers c
                         ⟨.postWait, (s.consumers c).processed⟩ }
  | dequeueSome (s : OrchState α C) (c : Fin C) (x : α) (q : List α) :
      (s.consumers c).phase = .postWait → s.queue = x :: q →
      OStep s { s with queue := q
                       consumers := Function.update s.consumers c
                         ⟨.idle, (s.consumers c).processed ++ [x]⟩ }
  | dequeueEmpty (s : OrchState α C) (c : Fin C) :
      (s.consumers c).phase = .postWait → s.queue = [] →
      OStep s { s with consumers := Function.update s.consumers c
                         ⟨.exited, (s.consumers c).processed⟩ }

/-- States reachable from the start of a run on `samples` with `C`
consumer threads. -/
inductive OReach (α : Type) (samples : List α) (C : Nat) :
    OrchState α C → Prop
  | init : OReach α samples C (initOrch α samples C)
  | step {s s' : OrchState α C} : OReach α samples C s → OStep s s' →
      OReach α samples C s'

/-- Multiset of all samples processed so far by a consumer family. -/
def procMultisetF {α : Type} {C : Nat} (g : Fin C → Consumer α) :
    Multiset α :=
  ∑ c, ((g c).processed : Multiset α)

/-- Multiset of all samples processed so far, over all consumers. -/
def procMultiset {α : Type} {C : Nat} (s : OrchState α C) : Multiset α :=
  procMultisetF s.consumers

/-- Number of samples processed so far. -/
def procCount {α : Type} {C : Nat} (s : OrchState α C) : Nat :=
  Multiset.card (procMultiset s)

/-- Number of consumers of a family in a given phase. -/
def phaseCountF {α : Type} {C : Nat} (p : CPhase)
    (g : Fin C → Consumer α) : Nat :=
  ∑ c, if (g c).phase = p then 1 else 0

/-- Number of consumers between a successful wait and the dequeue. -/
def postWaits {α : Type} {C : Nat} (s : OrchState α C) : Nat :=
  phaseCountF .postWait s.consumers

/-- Number of consumers that have exited their loop. -/
def exiteds {α : Type} {C : Nat} (s : OrchState α C) : Nat :=
  phaseCountF .exited s.consumers

/-- Strictly decreasing measure: every orchestrator step reduces it, so
no run goes on forever. -/
def orchMeasure {α : Type} {C : Nat} (s : OrchState α C) : Nat :=
  3 * (2 * s.pending.length + (if s.toSignal then 1 else 0) +
    (if s.pillsDone then 0 else C + 1)) + 2 * s.sem + postWaits s

/-- The orchestrator invariant.  `done` is the list of samples enqueued
so far; the token equation balances semaphore signals against waits
(`done.length` sample signals minus the pending one, plus `C` pill
signals once issued, equals the semaphore count plus one consumed
signal per completed or in-progress loop iteration and per exit). -/
def orchInv {α : Type} {C : Nat} (samples : List α)
    (s : OrchState α C) : Prop :=
  ∃ done : List α,
    samples = done ++ s.pending ∧
    procMultiset s + ↑s.queue = ↑done ∧
    done.length + (if s.pillsDone then C else 0) =
      s.sem + procCount s + postWaits s + exiteds s +
        (if s.toSignal then 1 else 0) ∧
    (s.pillsDone = true → s.pending = [] ∧ s.toSignal = false) ∧
    (1 ≤ exiteds s → s.pillsDone = true ∧ s.queue = [])

theorem sum_comp_update {M : Type} [AddCommMonoid M] {n : Nat} {β : Type}
    (g : Fin n → β) (F : β → M) (c : Fin n) (v : β) :
    (∑ i, F (Function.update g c v i)) + F (g c) =
      (∑ i, F (g i)) + F v := by
  have h1 : (fun i => F (Function.update g c v i)) =
      Function.update (fun i => F (g i)) c (F v) := by
    funext i
    by_cases hic : i = c
    · subst hic; simp [Function.update_same]
    · simp [Function.update_noteq hic]
  rw [h1, Finset.sum_update_of_mem (Finset.mem_univ c)]
  rw [← Finset.add_sum_erase _ _ (Finset.mem_univ c), Finset.erase_eq]
  abel

theorem procMultisetF_update {α : Type} {C : Nat} (g : Fin C → Consumer α)
    (c : Fin C) (v : Consumer α) :
    procMultisetF (Function.update g c v) + ↑((g c).processed) =
      procMultisetF g + ↑(v.processed) :=
  sum_comp_update g (fun cons => (cons.processed : Multiset α)) c v

theorem phaseCountF_update {α : Type} {C : Nat} (p : CPhase)
    (g : Fin C → Consumer α) (c : Fin C) (v : Consumer α) :
    phaseCountF p (Function.update g c v) +
        (if (g c).phase = p then 1 else 0) =
      phaseCountF p g + (if v.phase = p then 1 else 0) :=
  sum_comp_update g (fun cons => if cons.phase = p then 1 else 0) c v

theorem phaseCountF_single_le {α : Type} {C : Nat} (p : CPhase)
    (g : Fin C → Consumer α) (c : Fin C) (h : (g c).phase = p) :
    1 ≤ phaseCountF p g := by
  have hle := Finset.single_le_sum
    (f := fun i => if (g i).phase = p then 1 else 0)
    (fun i _ => Nat.zero_le _) (Finset.mem_univ c)
  simpa [phaseCountF, h] using hle

theorem phaseCountF_le_card {α : Type} {C : Nat} (p : CPhase)
    (g : Fin C → Consumer α) : phaseCountF p g ≤ C := by
  calc phaseCountF p g ≤ ∑ _c : Fin C, 1 := by
        apply Finset.sum_le_sum
        intro i _
        split <;> omega
    _ = C := by simp

theorem phaseCountF_eq_card {α : Type} {C : Nat} (p : CPhase)
    (g : Fin C → Consumer α) (h : phaseCountF p g = C) :
    ∀ c, (g c).phase = p := by
  intro c
  by_contra hc
  have h3 : phaseCountF p g = (if (g c).phase = p then 1 else 0) +
      ∑ i ∈ Finset.univ.erase c, (if (g i).phase = p then 1 else 0) :=
    (Finset.add_sum_erase _ _ (Finset.mem_univ c)).symm
  have h1 : (if (g c).phase = p then 1 else 0) = 0 := by simp [hc]
  have h4 : ∑ i ∈ Finset.univ.erase c,
      (if (g i).phase = p then 1 else 0) ≤
      ∑ _i ∈ Finset.univ.erase c, 1 := by
    apply Finset.sum_le_sum
    intro i _
    split <;> omega
  have h5 : ∑ _i ∈ Finset.univ.erase c, 1 = C - 1 := by
    simp [Finset.card_erase_of_mem]
  have hC : 1 ≤ C := by
    rcases Nat.eq_zero_or_pos C with h0 | h1'
    · exact absurd (Fin.pos_iff_nonempty.mpr ⟨c⟩) (by omega)
    · exact h1'
  omega

theorem coe_append_singleton {a : Type} (l : List a) (x : a) :
    ((l ++ [x] : List a) : Multiset a) = ↑l + {x} := by
  rw [← Multiset.coe_add]
  rfl

theorem coe_cons_multiset {a : Type} (x : a) (q : List a) :
    ((x :: q : List a) : Multiset a) = {x} + ↑q := by
  show (([x] ++ q : List a) : Multiset a) = {x} + ↑q
  rw [← Multiset.coe_add]
  rfl

/-- One orchestrator step preserves the invariant. -/
theorem orchInv_step {α : Type} {C : Nat} {samples : List α}
    {s s' : OrchState α C} (hinv : orchInv samples s) (hstep : OStep s s') :
    orchInv samples s' := by
  obtain ⟨done, hsamp, hmul, hcnt, hpills, hexit⟩ := hinv
  simp only [procCount, procMultiset, postWaits, exiteds] at hcnt hexit
  simp only [procMultiset] at hmul
  cases hstep with
  | enqueue x rest hpend hts =>
    have hpd : s.pillsDone = false := by
      cases hb : s.pillsDone
      · rfl
      · obtain ⟨h1, -⟩ := hpills hb
        rw [hpend] at h1
        exact absurd h1 (by simp)
    refine ⟨done ++ [x], ?_, ?_, ?_, ?_, ?_⟩
    · show samples = (done ++ [x]) ++ rest
      rw [hsamp, hpend]
      simp
    · show procMultisetF s.consumers + ↑(s.queue ++ [x]) = ↑(done ++ [x])
      rw [coe_append_singleton, coe_append_singleton, ← hmul]
      abel
    · show (done ++ [x]).length + (if s.pillsDone then C else 0) =
        s.sem + Multiset.card (procMultisetF s.consumers) +
          phaseCountF .postWait s.consumers +
          phaseCountF .exited s.consumers + (if true then 1 else 0)
      simp [hpd, hts] at hcnt ⊢
      omega
    · intro h
      exact absurd (show s.pillsDone = true from h) (by rw [hpd]; simp)
    · intro h
      obtain ⟨h1, -⟩ := hexit h
      rw [hpd] at h1
      exact absurd h1 (by simp)
  | signalOne hts =>
    refine ⟨done, hsamp, hmul, ?_, ?_, ?_⟩
    · show done.length + (if s.pillsDone then C else 0) =
        (s.sem + 1) + Multiset.card (procMultisetF s.consumers) +
          phaseCountF .postWait s.consumers +
          phaseCountF .exited s.consumers + (if false then 1 else 0)
      rcases hpd : s.pillsDone <;> simp [hts, hpd] at hcnt ⊢ <;> omega
    · intro h
      exact ⟨(hpills h).1, rfl⟩
    · intro h
      exact hexit h
  | signalPills hpend hts hpdf =>
    refine ⟨done, hsamp, hmul, ?_, ?_, ?_⟩
    · show done.length + (if true then C else 0) =
        (s.sem + C) + Multiset.card (procMultisetF s.consumers) +
          phaseCountF .postWait s.consumers +
          phaseCountF .exited s.consumers + (if s.toSignal then 1 else 0)
      rcases hts2 : s.toSignal <;> simp [hpdf, hts2] at hcnt ⊢ <;> omega
    · intro _
      exact ⟨hpend, hts⟩
    · intro h
      exact ⟨rfl, (hexit h).2⟩
  | wait c hphase hsem =>
    have hPM : procMultisetF (Function.update s.consumers c
        ⟨.postWait, (s.consumers c).processed⟩) =
        procMultisetF s.consumers :=
      add_right_cancel (procMultisetF_update s.consumers c
        ⟨.postWait, (s.consumers c).processed⟩)
    have hW := phaseCountF_update .postWait s.consumers c
      ⟨.postWait, (s.consumers c).processed⟩
    rw [hphase] at hW
    simp at hW
    have hE := phaseCountF_update .exited s.consumers c
      ⟨.postWait, (s.consumers c).processed⟩
    rw [hphase] at hE
    simp at hE
    refine ⟨done, hsamp, ?_, ?_, ?_, ?_⟩
    · show procMultisetF (Function.update s.consumers c
        ⟨.postWait, (s.consumers c).processed⟩) + ↑s.queue = ↑done
      rw [hPM]
      exact hmul
    · show done.length + (if s.pillsDone then C else 0) =
        (s.sem - 1) + Multiset.card (procMultisetF (Function.update
          s.consumers c ⟨.postWait, (s.consumers c).processed⟩)) +
          phaseCountF .postWait (Function.update s.consumers c
            ⟨.postWait, (s.consumers c).processed⟩) +
          phaseCountF .exited (Function.update s.consumers c
            ⟨.postWait, (s.consumers c).processed⟩) +
          (if s.toSignal then 1 else 0)
      rw [hPM]
      rcases hpd : s.pillsDone <;> rcases hts : s.toSignal <;>
        simp [hpd, hts] at hcnt ⊢ <;> omega
    · intro h
      exact hpills h
    · intro h
      have h' : 1 ≤ phaseCountF .exited s.consumers := by
        have heq : phaseCountF .exited (Function.update s.consumers c
            ⟨.postWait, (s.consumers c).processed⟩) =
            phaseCountF .exited s.consumers := by omega
        rw [← heq]
        exact h
      exact hexit h'
  | dequeueSome c x q hphase hqueue =>
    have hPM : procMultisetF (Function.update s.consumers c
        ⟨.idle, (s.consumers c).processed ++ [x]⟩) =
        procMultisetF s.consumers + {x} := by
      have h0 := procMultisetF_update s.consumers c
        ⟨.idle, (s.consumers c).processed ++ [x]⟩
      have h2 : procMultisetF s.consumers +
          ↑((s.consumers c).processed ++ [x]) =
          (procMultisetF s.consumers + {x}) +
            ↑((s.consumers c).processed) := by
        rw [coe_append_singleton]
        abel
      rw [h2] at h0
      exact add_right_cancel h0
    have hCard : Multiset.card (procMultisetF (Function.update s.consumers c
        ⟨.idle, (s.consumers c).processed ++ [x]⟩)) =
        Multiset.card (procMultisetF s.consumers) + 1 := by
      rw [hPM]
      simp
    have hW := phaseCountF_update .postWait s.consumers c
      ⟨.idle, (s.consumers c).processed ++ [x]⟩
    rw [hphase] at hW
    simp at hW
    have hE := phaseCountF_update .exited s.consumers c
      ⟨.idle, (s.consumers c).processed ++ [x]⟩
    rw [hphase] at hE
    simp at hE
    refine ⟨done, hsamp, ?_, ?_, ?_, ?_⟩
    · show procMultisetF (Function.update s.consumers c
        ⟨.idle, (s.consumers c).processed ++ [x]⟩) + ↑q = ↑done
      rw [hPM, ← hmul, hqueue, coe_cons_multiset]
      abel
    · show done.length + (if s.pillsDone then C else 0) =
        s.sem + Multiset.card (procMultisetF (Function.update s.consumers c
          ⟨.idle, (s.consumers c).processed ++ [x]⟩)) +
          phaseCountF .postWait (Function.update s.consumers c
            ⟨.idle, (s.consumers c).processed ++ [x]⟩) +
          phaseCountF .exited (Function.update s.consumers c
            ⟨.idle, (s.consumers c).processed ++ [x]⟩) +
          (if s.toSignal then 1 else 0)
      rcases hpd : s.pillsDone <;> rcases hts : s.toSignal <;>
        simp [hpd, hts] at hcnt ⊢ <;> omega
    · intro h
      exact hpills h
    · intro h
      have h0 : 1 ≤ phaseCountF .exited (Function.update s.consumers c
          ⟨.idle, (s.consumers c).processed ++ [x]⟩) := h
      have h' : 1 ≤ phaseCountF .exited s.consumers := by omega
      obtain ⟨-, h2⟩ := hexit h'
      rw [hqueue] at h2
      exact absurd h2 (by simp)
  | dequeueEmpty c hphase hqueue =>
    have hPM : procMultisetF (Function.update s.consumers c
        ⟨.exited, (s.consumers c).processed⟩) =
        procMultisetF s.consumers :=
      add_right_cancel (procMultisetF_update s.consumers c
        ⟨.exited, (s.consumers c).processed⟩)
    have hW := phaseCountF_update .postWait s.consumers c
      ⟨.exited, (s.consumers c).processed⟩
    rw [hphase] at hW
    simp at hW
    have hE := phaseCountF_update .exited s.consumers c
      ⟨.exited, (s.consumers c).processed⟩
    rw [hphase] at hE
    simp at hE
    have hEQ : Multiset.card (procMultisetF s.consumers) = done.length := by
      have hc := congrArg Multiset.card hmul
      rw [hqueue] at hc
      simpa using hc
    have hpw : 1 ≤ phaseCountF .postWait s.consumers :=
      phaseCountF_single_le .postWait s.consumers c hphase
    have hpd : s.pillsDone = true := by
      cases hb : s.pillsDone
      · rcases hts : s.toSignal <;> simp [hb, hts] at hcnt <;> omega
      · rfl
    refine ⟨done, hsamp, ?_, ?_, ?_, ?_⟩
    · show procMultisetF (Function.update s.consumers c
        ⟨.exited, (s.consumers c).processed⟩) + ↑s.queue = ↑done
      rw [hPM]
      exact hmul
    · show done.length + (if s.pillsDone then C else 0) =
        s.sem + Multiset.card (procMultisetF (Function.update s.consumers c
          ⟨.exited, (s.consumers c).processed⟩)) +
          phaseCountF .postWait (Function.update s.consumers c
            ⟨.exited, (s.consumers c).processed⟩) +
          phaseCountF .exited (Function.update s.consumers c
            ⟨.exited, (s.consumers c).processed⟩) +
          (if s.toSignal then 1 else 0)
      rw [hPM]
      rcases hts : s.toSignal <;> simp [hpd, hts] at hcnt ⊢ <;> omega
    · intro h
      exact hpills h
    · intro _
      exact ⟨hpd, hqueue⟩

/-- Every reachable orchestrator state satisfies the invariant. -/
theorem orchInv_reach {α : Type} {samples : List α} {C : Nat}
    {s : OrchState α C} (h : OReach α samples C s) : orchInv samples s := by
  induction h with
  | init =>
    refine ⟨[], by simp [initOrch], ?_, ?_, by simp [initOrch], ?_⟩
    · simp [initOrch, procMultiset, procMultisetF]
    · simp [initOrch, procCount, procMultiset, procMultisetF, postWaits,
        exiteds, phaseCountF]
    · intro h1
      simp [initOrch, exiteds, phaseCountF] at h1
  | step _ hstep IH => exact orchInv_step IH hstep

theorem phaseCountF_eq_zero_of {α : Type} {C : Nat} (p : CPhase)
    (g : Fin C → Consumer α) (h : ∀ c, (g c).phase ≠ p) :
    phaseCountF p g = 0 := by
  unfold phaseCountF
  apply Finset.sum_eq_zero
  intro c _
  simp [h c]

theorem phaseCountF_of_all {α : Type} {C : Nat} (p : CPhase)
    (g : Fin C → Consumer α) (h : ∀ c, (g c).phase = p) :
    phaseCountF p g = C := by
  unfold phaseCountF
  have hone : ∀ c ∈ Finset.univ,
      (if (g c).phase = p then (1 : Nat) else 0) = 1 := fun c _ => by
    simp [h c]
  rw [Finset.sum_congr rfl hone]
  simp

/-- Every orchestrator step strictly decreases the measure: no run of
the producer/consumer system goes on forever. -/
theorem orchMeasure_decreasing {α : Type} {C : Nat}
    {s s' : OrchState α C} (hstep : OStep s s') :
    orchMeasure s' < orchMeasure s := by
  cases hstep with
  | enqueue x rest hpend hts =>
    have hlen : s.pending.length = rest.length + 1 := by rw [hpend]; simp
    simp only [orchMeasure, postWaits]
    rcases hpd : s.pillsDone <;> simp [hts, hpd, hlen] <;> omega
  | signalOne hts =>
    simp only [orchMeasure, postWaits]
    rcases hpd : s.pillsDone <;> simp [hts, hpd] <;> omega
  | signalPills hpend hts hpdf =>
    simp only [orchMeasure, postWaits]
    simp [hts, hpdf]
    omega
  | wait c hphase hsem =>
    have hW := phaseCountF_update .postWait s.consumers c
      ⟨.postWait, (s.consumers c).processed⟩
    rw [hphase] at hW
    simp at hW
    simp only [orchMeasure, postWaits]
    omega
  | dequeueSome c x q hphase hqueue =>
    have hW := phaseCountF_update .postWait s.consumers c
      ⟨.idle, (s.consumers c).processed ++ [x]⟩
    rw [hphase] at hW
    simp at hW
    simp only [orchMeasure, postWaits]
    omega
  | dequeueEmpty c hphase hqueue =>
    have hW := phaseCountF_update .postWait s.consumers c
      ⟨.exited, (s.consumers c).processed⟩
    rw [hphase] at hW
    simp at hW
    simp only [orchMeasure, postWaits]
    omega

/-- **C8.** Orchestrator shutdown protocol.  The producer signals the
semaphore exactly once per enqueued sample and, after the sun-position
sequence is exhausted, exactly once more per consumer thread without
enqueuing anything (this pairing is the `OStep` transition system
itself); each consumer loops (wait, attempt dequeue) and terminates
exactly when a successful wait is followed by an empty dequeue —
conversely, in every reachable state an exited consumer implies the
producer was exhausted and the poison pills signaled.  Every enqueued
sample sits in exactly one place (some consumer's processed list or the
queue); every step decreases a natural-number measure, so no run goes
on forever; and in any final (stuck) state with at least one consumer,
every consumer thread has exited its loop and the multiset of samples
processed — each by exactly one consumer — is exactly the whole sample
sequence. -/
theorem orchestrator_shutdown_spec (α : Type) (samples : List α)
    (C : Nat) (s : OrchState α C) (h : OReach α samples C s) :
    (1 ≤ exiteds s →
      s.pillsDone = true ∧ s.pending = [] ∧ s.queue = []) ∧
    (∃ done, samples = done ++ s.pending ∧
      procMultiset s + ↑s.queue = ↑done) ∧
    (∀ s', OStep s s' → orchMeasure s' < orchMeasure s) ∧
    ((∀ s', ¬ OStep s s') → 1 ≤ C →
      (∀ c, (s.consumers c).phase = .exited) ∧
        procMultiset s = ↑samples) := by
  obtain ⟨done, hsamp, hmul, hcnt, hpills, hexit⟩ := orchInv_reach h
  refine ⟨?_, ⟨done, hsamp, hmul⟩,
    fun s' hs => orchMeasure_decreasing hs, ?_⟩
  · intro hx
    obtain ⟨h1, h2⟩ := hexit hx
    exact ⟨h1, (hpills h1).1, h2⟩
  · intro hstuck hC
    simp only [procCount, procMultiset, postWaits, exiteds] at hcnt hexit
    simp only [procMultiset] at hmul
    have hts : s.toSignal = false := by
      cases hb : s.toSignal
      · rfl
      · exact absurd (OStep.signalOne s hb) (hstuck _)
    have hpend : s.pending = [] := by
      rcases hb : s.pending with _ | ⟨x, rest⟩
      · rfl
      · exact absurd (OStep.enqueue s x rest hb hts) (hstuck _)
    have hpd : s.pillsDone = true := by
      cases hb : s.pillsDone
      · exact absurd (OStep.signalPills s hpend hts hb) (hstuck _)
      · rfl
    have hnpw : ∀ c, (s.consumers c).phase ≠ .postWait := by
      intro c hc
      rcases hq : s.queue with _ | ⟨x, q⟩
      · exact absurd (OStep.dequeueEmpty s c hc hq) (hstuck _)
      · exact absurd (OStep.dequeueSome s c x q hc hq) (hstuck _)
    have hpw0 : phaseCountF .postWait s.consumers = 0 :=
      phaseCountF_eq_zero_of .postWait s.consumers hnpw
    have hidle_sem : ∀ c, (s.consumers c).phase = .idle → s.sem = 0 := by
      intro c hc
      rcases Nat.eq_zero_or_pos s.sem with h0 | hpos
      · exact h0
      · exact absurd (OStep.wait s c hc hpos) (hstuck _)
    have hEdone : done.length = samples.length := by
      rw [hsamp, hpend]
      simp
    rcases Nat.eq_zero_or_pos (phaseCountF .exited s.consumers) with
      hex0 | hex1
    · exfalso
      have hall_idle : ∀ c, (s.consumers c).phase = .idle := by
        intro c
        rcases hc : (s.consumers c).phase
        · rfl
        · exact absurd hc (hnpw c)
        · have := phaseCountF_single_le .exited s.consumers c hc
          omega
      have hsem0 : s.sem = 0 := hidle_sem ⟨0, hC⟩ (hall_idle _)
      have hcard := congrArg Multiset.card hmul
      simp only [Multiset.card_add, Multiset.coe_card] at hcard
      simp only [hpd, hts, hex0, hpw0, hsem0] at hcnt
      simp at hcnt
      omega
    · obtain ⟨-, hq⟩ := hexit hex1
      have hcard := congrArg Multiset.card hmul
      rw [hq] at hcard
      simp only [Multiset.card_add, Multiset.coe_card] at hcard
      simp at hcard
      have hexC : phaseCountF .exited s.consumers = C := by
        by_cases hall : ∀ c, (s.consumers c).phase = .exited
        · exact phaseCountF_of_all .exited s.consumers hall
        · push_neg at hall
          obtain ⟨c, hc⟩ := hall
          have hcidle : (s.consumers c).phase = .idle := by
            rcases hp : (s.consumers c).phase
            · rfl
            · exact absurd hp (hnpw c)
            · exact absurd hp hc
          have hsem0 : s.sem = 0 := hidle_sem c hcidle
          simp only [hpd, hts, hpw0, hsem0] at hcnt
          simp at hcnt
          omega
      refine ⟨phaseCountF_eq_card .exited s.consumers hexC, ?_⟩
      have hdone : done = samples := by rw [hsamp, hpend]; simp
      show procMultisetF s.consumers = ↑samples
      rw [← hdone, ← hmul, hq]
      simp

/-- Witness for `orchestrator_shutdown_spec`: a complete run with one
sample and one consumer thread — enqueue, signal, poison pill, wait,
dequeue+process, wait, empty dequeue, exit — reaches a stuck state in
which the consumer has exited and the sample was processed exactly
once. -/
theorem orchestrator_shutdown_spec_witness :
    (∀ c : Fin 1,
      ((⟨[], false, true, 0, [], fun _ => ⟨CPhase.exited, [5]⟩⟩ :
        OrchState Nat 1).consumers c).phase = CPhase.exited) ∧
    procMultiset (⟨[], false, true, 0, [],
      fun _ => ⟨CPhase.exited, [5]⟩⟩ : OrchState Nat 1) =
      ↑([5] : List Nat) := by
  have r0 : OReach Nat [5] 1 (initOrch Nat [5] 1) := OReach.init
  have r1 : OReach Nat [5] 1
      (⟨[], true, false, 0, [5], fun _ => ⟨CPhase.idle, []⟩⟩ :
        OrchState Nat 1) :=
    OReach.step r0 (OStep.enqueue _ 5 [] rfl rfl)
  have r2 : OReach Nat [5] 1
      (⟨[], false, false, 1, [5], fun _ => ⟨CPhase.idle, []⟩⟩ :
        OrchState Nat 1) :=
    OReach.step r1 (OStep.signalOne _ rfl)
  have r3 : OReach Nat [5] 1
      (⟨[], false, true, 2, [5], fun _ => ⟨CPhase.idle, []⟩⟩ :
        OrchState Nat 1) :=
    OReach.step r2 (OStep.signalPills _ rfl rfl rfl)
  have r4 : OReach Nat [5] 1
      (⟨[], false, true, 1, [5], Function.update
        (fun _ => ⟨CPhase.idle, []⟩) 0 ⟨CPhase.postWait, []⟩⟩ :
        OrchState Nat 1) :=
    OReach.step r3 (OStep.wait _ 0 rfl (by norm_num))
  have r5 : OReach Nat [5] 1
      (⟨[], false, true, 1, [], Function.update (Function.update
        (fun _ => ⟨CPhase.idle, []⟩) 0 ⟨CPhase.postWait, []⟩) 0
        ⟨CPhase.idle, [5]⟩⟩ : OrchState Nat 1) :=
    OReach.step r4 (OStep.dequeueSome _ 0 5 [] (by rfl) rfl)
  have r6 : OReach Nat [5] 1
      (⟨[], false, true, 0, [], Function.update (Function.update
        (Function.update (fun _ => ⟨CPhase.idle, []⟩) 0
          ⟨CPhase.postWait, []⟩) 0 ⟨CPhase.idle, [5]⟩) 0
        ⟨CPhase.postWait, [5]⟩⟩ : OrchState Nat 1) :=
    OReach.step r5 (OStep.wait _ 0 (by rfl) (by norm_num))
  have r7 : OReach Nat [5] 1
      (⟨[], false, true, 0, [], Function.update (Function.update
        (Function.update (Function.update (fun _ => ⟨CPhase.idle, []⟩) 0
          ⟨CPhase.postWait, []⟩) 0 ⟨CPhase.idle, [5]⟩) 0
        ⟨CPhase.postWait, [5]⟩) 0 ⟨CPhase.exited, [5]⟩⟩ :
        OrchState Nat 1) :=
    OReach.step r6 (OStep.dequeueEmpty _ 0 (by rfl) rfl)
  have hgEq : Function.update (Function.update (Function.update
      (Function.update (fun _ : Fin 1 => (⟨CPhase.idle, []⟩ : Consumer Nat))
        (0 : Fin 1) ⟨CPhase.postWait, []⟩) (0 : Fin 1) ⟨CPhase.idle, [5]⟩)
      (0 : Fin 1) ⟨CPhase.postWait, [5]⟩) (0 : Fin 1) ⟨CPhase.exited, [5]⟩ =
      (fun _ : Fin 1 => (⟨CPhase.exited, [5]⟩ : Consumer Nat)) := by
    funext c
    have hc : c = 0 := Subsingleton.elim c 0
    subst hc
    rfl
  have rclean : OReach Nat [5] 1
      (⟨[], false, true, 0, [], fun _ => ⟨CPhase.exited, [5]⟩⟩ :
        OrchState Nat 1) := by
    rw [← hgEq]
    exact r7
  have hstuck : ∀ s', ¬ OStep
      (⟨[], false, true, 0, [], fun _ => ⟨CPhase.exited, [5]⟩⟩ :
        OrchState Nat 1) s' := by
    rintro s' hs
    cases hs with
    | enqueue x rest hpend hts => exact absurd hpend (by simp)
    | signalOne hts => exact absurd hts (by simp)
    | signalPills hpend hts hpdf => exact absurd hpdf (by simp)
    | wait c hphase hsem => exact absurd hsem (by simp)
    | dequeueSome c x q hphase hqueue => exact absurd hphase (by simp)
    | dequeueEmpty c hphase hqueue => exact absurd hphase (by simp)
  exact (orchestrator_shutdown_spec Nat [5] 1 _ rclean).2.2.2 hstuck
    (by norm_num)

end Solmap
